import Mathlib

/-!
Verification development for the scipy point-clustering plugin
(`scipy_point_clustering_algorithm.py`).

The source file wires three QGIS processing algorithms around numeric
routines: `HierarchicalClustering.processAlgorithm`,
`KMeansClustering.processAlgorithm` and
`HierarchicalClusteringByIdentifier.processAlgorithm`.  The validation,
masking and output-writing logic of those methods is embedded here
directly from the Python source.  The numeric routines the source
delegates to an external library (pairwise-distance compression,
agglomerative linkage, flat-cluster extraction, k-means) are modelled
from the specification, as noted on each definition.

Distances are rationals extended with an infinity sentinel
(`WithTop ℚ`), matching the `np.inf` masking trick of the source.
-/

namespace SPC

/-- Extended distance values: nonnegative rationals plus the `np.inf`
sentinel used by the identifier-constraint mask. -/
abbrev Dist := WithTop ℚ

/-- Minimum of a list of extended distances (`⊤` for the empty list). -/
def dmin (l : List Dist) : Dist := l.foldr min ⊤

/-- Row-major enumeration of the strictly-upper-triangle index pairs
`(i, j)` with `i < j < n`: the layout of the compressed distance form. -/
def upperPairs (n : ℕ) : List (ℕ × ℕ) :=
  (List.range n).flatMap fun i =>
    ((List.range n).filter fun j => decide (i < j)).map fun j => (i, j)

/-- Position of the first occurrence of an element in a list
(`length` when absent). -/
def posOf {α : Type} [DecidableEq α] (p : α) : List α → ℕ
  | [] => 0
  | q :: l => if q = p then 0 else posOf p l + 1

/-- Modelled from the spec: the compressed (upper-triangle, row-major,
strictly `i < j`) form of an `n × n` distance matrix; the recompression
direction of the external `squareform` routine the source calls on
lines 561 and 566. -/
def squareToCondensed (n : ℕ) (m : ℕ → ℕ → Dist) : List Dist :=
  (upperPairs n).map fun p => m p.1 p.2

/-- Modelled from the spec: decompression of a compressed distance
vector to the full symmetric square form with zero diagonal; the
decompression direction of the external `squareform` routine.  Entry
`(i, j)` with `i < j` is read at the row-major position of `(i, j)` in
the strictly-upper-triangle enumeration. -/
def condensedToSquare (n : ℕ) (v : List Dist) : ℕ → ℕ → Dist := fun i j =>
  if i = j then 0
  else if i < j then (v.getD (posOf (i, j) (upperPairs n)) 0)
  else (v.getD (posOf (j, i) (upperPairs n)) 0)

/-- Fuelled worker for `firsts` (structural recursion so that concrete
instances reduce inside the kernel). -/
def firstsGo {α : Type} [DecidableEq α] : ℕ → List α → List α
  | _, [] => []
  | 0, _ :: _ => []
  | fuel + 1, a :: l => a :: firstsGo fuel (l.filter fun x => decide (x ≠ a))

/-- The distinct values of a list in order of first appearance
(the model of `len(np.unique(y))` counts and of first-appearance
relabelling). -/
def firsts {α : Type} [DecidableEq α] (l : List α) : List α := firstsGo l.length l

/-- Modelled from the spec: flat-cluster labels are renumbered as
contiguous integers starting at 1 in ascending order of first
appearance when scanning the raw per-point assignments in point-index
order (spec 4.4, final labelling rule of the external `fcluster`). -/
def relabel {α : Type} [DecidableEq α] (l : List α) : List ℕ :=
  l.map fun x => posOf x (firsts l) + 1

/-- The identifier-constraint transform of the source
(`HierarchicalClusteringByIdentifier.processAlgorithm`, lines 562-565):
`increase_offseets = np.array([identifiers != val for val in identifiers])`
marks entry `(i, j)` exactly when `identifiers[j] != identifiers[i]`, and
`distances[increase_offseets] = np.inf` sends those entries to infinity,
leaving all same-identifier entries untouched. -/
def constrainSquare {α : Type} [DecidableEq α] (m : ℕ → ℕ → Dist) (ids : ℕ → α) :
    ℕ → ℕ → Dist := fun i j =>
  if ids j ≠ ids i then ⊤ else m i j

/-- Modelled from the spec: single-linkage inter-cluster distance, the
minimum over all constituent pairwise distances (spec 4.3, Lance-Williams
update for the `single` method used by the external `linkage` routine). -/
def clusterDist (d : ℕ → ℕ → Dist) (C D : List ℕ) : Dist :=
  dmin (C.flatMap fun i => D.map fun j => d i j)

/-- State of the agglomerative merge loop: the live clusters (as lists of
original point indices), the current inter-cluster distance function
(keyed by cluster member lists), and the recorded merges (merged member
list and merge distance), in merge order. -/
structure AggState where
  clusters : List (List ℕ)
  dist : List ℕ → List ℕ → Dist
  merges : List (List ℕ × Dist)

/-- A Lance-Williams distance-update rule: the distance from the cluster
merged out of the first two member lists to the third, computed from the
three previous inter-cluster distances (and, through the member lists,
the cluster sizes a method may weight by).  Each of the seven linkage
methods offered by the source (`_linkage_methods`, line 74) is one such
rule. -/
abbrev UpdateRule := List ℕ → List ℕ → List ℕ → Dist → Dist → Dist → Dist

/-- The one property of an update rule the constrained run relies on:
when both merged children sit at infinite distance from a third cluster,
so does the merged cluster.  Under the infinity arithmetic induced by
the mask this holds for every linkage method offered by the source:
minima, maxima, weighted means and the ward/centroid/median combinations
of two infinities are infinite. -/
def TopPreserving (upd : UpdateRule) : Prop :=
  ∀ A B E dAB, upd A B E ⊤ ⊤ dAB = ⊤

/-- Modelled from the spec: the Lance-Williams rule of the `single`
method — the minimum of the two previous distances (spec 4.3). -/
def singleLinkUpdate : UpdateRule := fun _ _ _ dAE dBE _ => min dAE dBE

/-- Modelled from the spec: the Lance-Williams rule of the `complete`
method — the maximum of the two previous distances (spec 4.3). -/
def completeLinkUpdate : UpdateRule := fun _ _ _ dAE dBE _ => max dAE dBE

/-- The inter-cluster distance function after merging `A` and `B`:
distances involving the new cluster `A ++ B` come from the update rule,
every other pair keeps its previous distance. -/
def updDist (upd : UpdateRule) (D : List ℕ → List ℕ → Dist) (A B C E : List ℕ) :
    Dist :=
  if C = A ++ B then
    if E = A ++ B then 0
    else upd A B E (D A E) (D B E) (D A B)
  else if E = A ++ B then upd A B C (D A C) (D B C) (D A B)
  else D C E

/-- Modelled from the spec: select the pair of live clusters at minimum
current inter-cluster distance, breaking exact ties deterministically by
lowest cluster index (spec 4.3); pairs are scanned in row-major order so
the first minimal pair wins. -/
def pickMin (D : List ℕ → List ℕ → Dist) (cs : List (List ℕ)) : (ℕ × ℕ) × Dist :=
  (upperPairs cs.length).foldl
    (fun best q =>
      if D (cs.getD q.1 []) (cs.getD q.2 []) < best.2
      then (q, D (cs.getD q.1 []) (cs.getD q.2 []))
      else best)
    ((0, 1), D (cs.getD 0 []) (cs.getD 1 []))

/-- Modelled from the spec: one step of the agglomerative merge loop for
an arbitrary linkage method (spec 4.3): merge the selected pair into a
new cluster appended at the end, record the merge, and update the
inter-cluster distances by the method's Lance-Williams rule. -/
def aggStep (upd : UpdateRule) (s : AggState) : AggState :=
  if 2 ≤ s.clusters.length then
    { clusters :=
        (s.clusters.eraseIdx (pickMin s.dist s.clusters).1.2).eraseIdx
            (pickMin s.dist s.clusters).1.1
          ++ [s.clusters.getD (pickMin s.dist s.clusters).1.1 []
              ++ s.clusters.getD (pickMin s.dist s.clusters).1.2 []],
      dist := updDist upd s.dist
          (s.clusters.getD (pickMin s.dist s.clusters).1.1 [])
          (s.clusters.getD (pickMin s.dist s.clusters).1.2 []),
      merges := s.merges ++
        [(s.clusters.getD (pickMin s.dist s.clusters).1.1 []
            ++ s.clusters.getD (pickMin s.dist s.clusters).1.2 [],
          (pickMin s.dist s.clusters).2)] }
  else s

/-- Initial agglomerative state: one singleton cluster per point, and
the inter-cluster distance of singletons is the matrix entry itself
(`clusterDist` restricted to singletons). -/
def aggInit (d : ℕ → ℕ → Dist) (n : ℕ) : AggState :=
  { clusters := (List.range n).map fun i => [i],
    dist := clusterDist d,
    merges := [] }

/-- Iterate the merge step. -/
def aggIter (upd : UpdateRule) : ℕ → AggState → AggState
  | 0, s => s
  | k + 1, s => aggIter upd k (aggStep upd s)

/-- Modelled from the spec: the full agglomerative run over `n` points
under linkage rule `upd`, terminating after `n - 1` merges (spec 4.3). -/
def aggRun (upd : UpdateRule) (d : ℕ → ℕ → Dist) (n : ℕ) : AggState :=
  aggIter upd (n - 1) (aggInit d n)

/-- Modelled from the spec: the flat cluster containing point `x` under
an arbitrary cut of the recorded dendrogram.  Every flat-extraction
criterion of the source (`_criterions`, line 76) forms its clusters as
unions of subtrees of the dendrogram, i.e. is determined by a selection
`sel` of recorded merges (spec 4.4); the component of `x` is the last
selected merge containing `x`, or the singleton `[x]` when none is. -/
def flatRep (merges : List (List ℕ × Dist)) (sel : List ℕ × Dist → Bool) (x : ℕ) :
    List ℕ :=
  merges.foldl (fun acc m => if sel m = true ∧ x ∈ m.1 then m.1 else acc) [x]

/-- Modelled from the spec: the merge selection of the `distance`
criterion with threshold `t` — exactly the merges recorded at distance
within the threshold (spec 4.4). -/
def distanceCut (t : ℚ) : List ℕ × Dist → Bool := fun m => decide (m.2 ≤ (t : Dist))

/-- Modelled from the spec: labels of the hierarchical clustering
pipeline — agglomeration under the caller-selected linkage method (its
Lance-Williams rule `upd`), the caller-selected criterion's dendrogram
cut `sel`, and first-appearance relabelling (the
`scipy.cluster.hierarchy.fclusterdata` call of
`HierarchicalClustering.processAlgorithm`, line 193). -/
def hierLabels (n : ℕ) (d : ℕ → ℕ → Dist) (upd : UpdateRule)
    (sel : List ℕ × Dist → Bool) : List ℕ :=
  relabel ((List.range n).map (flatRep (aggRun upd d n).merges sel))

/-- The identifier-constrained hierarchical pipeline of
`HierarchicalClusteringByIdentifier.processAlgorithm` (lines 561-576):
mask cross-identifier distances to infinity, then run the
caller-selected linkage method and criterion cut on the constrained
matrix. -/
def hierByIdLabels {α : Type} [DecidableEq α] (n : ℕ) (d : ℕ → ℕ → Dist)
    (ids : ℕ → α) (upd : UpdateRule) (sel : List ℕ × Dist → Bool) : List ℕ :=
  hierLabels n (constrainSquare d ids) upd sel

/-- Identifier-homogeneity of a set of point indices. -/
def Homog {α : Type} [DecidableEq α] (ids : ℕ → α) (S : List ℕ) : Prop :=
  ∀ a ∈ S, ∀ b ∈ S, ids a = ids b

/-- One cluster has no member in common with another. -/
def PairDisj (C D : List ℕ) : Prop := ∀ x, x ∈ C → x ∉ D

/-- Two clusters hold points with different identifiers. -/
def MixedIds {α : Type} [DecidableEq α] (ids : ℕ → α) (C E : List ℕ) : Prop :=
  ∃ x ∈ C, ∃ y ∈ E, ids x ≠ ids y

/-- Merges at infinite distance form a terminal suffix of the record:
once the loop merges at infinite distance — i.e. once every
finite-distance merge has been exhausted — no later merge is finite. -/
def TopClosed (merges : List (List ℕ × Dist)) : Prop :=
  ∀ k₁ k₂ (h₁ : k₁ < merges.length) (h₂ : k₂ < merges.length),
    k₁ ≤ k₂ → merges[k₁].2 = ⊤ → merges[k₂].2 = ⊤

/-- Loop invariant of the constrained agglomerative run: merges recorded
at finite distance are identifier-homogeneous; the run is either in its
pure phase (all live clusters homogeneous, cross-identifier pairs at
infinite distance, no infinite merge yet) or in its saturated phase
(every pair of distinct live clusters at infinite distance); live
clusters are nonempty and pairwise disjoint; the distance function is
symmetric on live clusters; infinite merges form a terminal suffix. -/
structure AggInv {α : Type} [DecidableEq α] (ids : ℕ → α) (s : AggState) : Prop where
  homogMerges : ∀ p ∈ s.merges, p.2 ≠ ⊤ → Homog ids p.1
  phase :
    ((∀ C ∈ s.clusters, Homog ids C) ∧
     (∀ C ∈ s.clusters, ∀ E ∈ s.clusters, MixedIds ids C E → s.dist C E = ⊤) ∧
     (∀ p ∈ s.merges, p.2 ≠ ⊤)) ∨
    (∀ C ∈ s.clusters, ∀ E ∈ s.clusters, PairDisj C E → s.dist C E = ⊤)
  nonempty : ∀ C ∈ s.clusters, C ≠ []
  disj : List.Pairwise PairDisj s.clusters
  distSymm : ∀ C ∈ s.clusters, ∀ E ∈ s.clusters, s.dist C E = s.dist E C
  topClosed : TopClosed s.merges

/-- A 2-D point with rational coordinates. -/
abbrev Pt := ℚ × ℚ

/-- Squared Euclidean distance; order-equivalent to the Euclidean metric
for all nearest-centroid comparisons. -/
def sqDist (p q : Pt) : ℚ := (p.1 - q.1) ^ 2 + (p.2 - q.2) ^ 2

/-- Modelled from the spec: index of the centroid nearest to `p`, ties
broken by lowest centroid index (spec 4.5, assignment rule of the
external `kmeans2` routine called on line 380). -/
def nearestIdx (cents : List Pt) (p : Pt) : ℕ :=
  (List.range cents.length).foldl
    (fun best j =>
      if sqDist p (cents.getD j (0, 0)) < sqDist p (cents.getD best (0, 0)) then j else best)
    0

/-- Modelled from the spec: the assignment pass of Lloyd's algorithm. -/
def assignLabels (pts : List Pt) (cents : List Pt) : List ℕ :=
  pts.map (nearestIdx cents)

/-- Positions (original point indices) carrying label `c`. -/
def clusterPositions (n : ℕ) (labels : List ℕ) (c : ℕ) : List ℕ :=
  (List.range n).filter fun m => decide (labels.getD m 0 = c)

/-- The member points of cluster `c`. -/
def membersOf (pts : List Pt) (labels : List ℕ) (c : ℕ) : List Pt :=
  (clusterPositions pts.length labels c).map fun m => pts.getD m (0, 0)

/-- Coordinate-wise mean of a list of points. -/
def meanPts (l : List Pt) : Pt :=
  ((l.map Prod.fst).sum / (l.length : ℚ), (l.map Prod.snd).sum / (l.length : ℚ))

/-- Modelled from the spec: centroid recomputation — each nonempty
cluster's centroid becomes the mean of its assigned points; a cluster
with zero assigned points keeps its previous centroid until re-seeded
(spec 4.5). -/
def recompute (pts : List Pt) (k : ℕ) (labels : List ℕ) (cents : List Pt) : List Pt :=
  (List.range k).map fun c =>
    if clusterPositions pts.length labels c = [] then cents.getD c (0, 0)
    else meanPts (membersOf pts labels c)

/-- Clusters that currently hold at least one point ("surviving"). -/
def survivors (n k : ℕ) (labels : List ℕ) : List ℕ :=
  (List.range k).filter fun c => decide (clusterPositions n labels c ≠ [])

/-- Minimum of a nonempty list of rationals (`0` for the empty list). -/
def qmin : List ℚ → ℚ
  | [] => 0
  | a :: l => l.foldl min a

/-- Distance from `p` to its nearest surviving centroid. -/
def centScore (cents : List Pt) (surv : List ℕ) (p : Pt) : ℚ :=
  qmin (surv.map fun c => sqDist p (cents.getD c (0, 0)))

/-- Modelled from the spec: the point currently farthest from its
nearest surviving centroid, ties broken by lowest point index — the
re-seeding source for an empty cluster (spec 4.5). -/
def farthestIdx (pts : List Pt) (cents : List Pt) (surv : List ℕ) : ℕ :=
  (List.range pts.length).foldl
    (fun best m =>
      if centScore cents surv (pts.getD best (0, 0))
          < centScore cents surv (pts.getD m (0, 0)) then m else best)
    0

/-- The lowest-numbered cluster with zero assigned points, when any. -/
def emptyCluster (n k : ℕ) (labels : List ℕ) : Option ℕ :=
  (List.range k).find? fun c => decide (clusterPositions n labels c = [])

/-- Modelled from the spec: re-seed the empty cluster `j` from the point
farthest from its nearest surviving centroid; the re-seeded centroid
takes that point over (spec 4.5). -/
def fixOne (pts : List Pt) (k : ℕ) (labels : List ℕ) (cents : List Pt) (j : ℕ) : List ℕ :=
  labels.set (farthestIdx pts cents (survivors pts.length k labels)) j

/-- Re-seed empty clusters one at a time, recomputing centroids after
each re-seed, until none remains (or fuel runs out). -/
def fixAll (pts : List Pt) (k : ℕ) : ℕ → List ℕ → List Pt → List ℕ × List Pt
  | 0, labels, cents => (labels, cents)
  | fuel + 1, labels, cents =>
    match emptyCluster pts.length k labels with
    | none => (labels, cents)
    | some j =>
      fixAll pts k fuel (fixOne pts k labels cents j)
        (recompute pts k (fixOne pts k labels cents j) cents)

/-- Modelled from the spec: one iteration of Lloyd's algorithm — assign
points to nearest centroids, recompute centroids, then re-seed any
empty clusters (spec 4.5). -/
def kmeansStep (pts : List Pt) (k : ℕ) (cents : List Pt) : List ℕ × List Pt :=
  fixAll pts k k (assignLabels pts cents)
    (recompute pts k (assignLabels pts cents) cents)

/-- Modelled from the spec: the k-means loop with an iteration cap,
returning the final labelling and centroids (spec 4.5; the external
`scipy.cluster.vq.kmeans2` call of `KMeansClustering.processAlgorithm`,
line 380).  The initialization strategy enters only through the initial
centroid list `cents0`. -/
def kmeansRun (pts : List Pt) (k : ℕ) (cents0 : List Pt) : ℕ → List ℕ × List Pt
  | 0 => (assignLabels pts cents0, cents0)
  | T + 1 => kmeansStep pts k (kmeansRun pts k cents0 T).2

/-- Number of empty clusters. -/
def emptyCount (n k : ℕ) (labels : List ℕ) : ℕ :=
  ((List.range k).filter fun c => decide (clusterPositions n labels c = [])).length

/-- Centroid coherence: every nonempty cluster's centroid is the mean of
its members. -/
def Coherent (pts : List Pt) (k : ℕ) (labels : List ℕ) (cents : List Pt) : Prop :=
  ∀ c, c < k → clusterPositions pts.length labels c ≠ [] →
    cents.getD c (0, 0) = meanPts (membersOf pts labels c)

/-- The error kind raised for malformed or out-of-range clustering
parameters. -/
inductive ClusterInputError
  | invalidInput
deriving DecidableEq

/-- Modelled from the spec: the KMeansClusterer operation including its
input validation — it fails with `InvalidInputError` when `k < 2`,
`k > n` or `n < 2`, and otherwise runs Lloyd's algorithm (spec 4.5; the
validation is performed by the external parameter framework and the
external `kmeans2` routine, not by code under version control here). -/
def kmeansClusterer (pts : List Pt) (k : ℕ) (cents0 : List Pt) (iters : ℕ) :
    Except ClusterInputError (List ℕ × List Pt) :=
  if k < 2 ∨ pts.length < k ∨ pts.length < 2 then .error .invalidInput
  else .ok (kmeansRun pts k cents0 iters)

/-- Error kinds raised by the three `processAlgorithm` methods:
`ValueError("Tolerance <= zero")`, `ValueError("Feature Count > point
limit")`, `ValueError("K is not an integer")`, and failures surfaced by
the delegated clustering routine. -/
inductive ProcError
  | toleranceNotPositive
  | overPointLimit
  | kNotInteger
  | clusterFailed
deriving DecidableEq

/-- The flat-cluster criterion options of the source (`_criterions`,
line 76), in source order. -/
inductive Criterion
  | distance
  | inconsistent
  | maxclust
  | monocrit
  | maxclustMonocrit
deriving DecidableEq

/-- The output-feature writes of the source's write loop: one feature
per input feature, carrying the label looked up by feature id in
`labels = dict(zip(feature_ids, y))`. -/
def featureWrites (fids : List ℤ) (y : List ℕ) : List (ℤ × ℕ) :=
  fids.map fun fid => (fid, ((fids.zip y).lookup fid).getD 0)

/-- Embedding of `HierarchicalClustering.processAlgorithm` (lines
124-241): reject `tolerance <= 0` first — unconditionally, before the
criterion is ever consulted (lines 144-147) — then reject a feature
count above the plugin point limit (lines 159-172), then delegate the
clustering to the external `fclusterdata` routine (the `clusterFn`
argument), and only then write one labelled output feature per input
feature and report `len(np.unique(y))` as NUM_CLUSTERS (lines 202-238).
The first component is the write log; every failure path precedes the
write loop. -/
def hierProcess (tolerance : ℚ) (criterion : Criterion) (pointLimit : ℕ)
    (fids : List ℤ) (pts : List Pt) (clusterFn : List Pt → Option (List ℕ)) :
    List (ℤ × ℕ) × Except ProcError ℕ :=
  if tolerance ≤ 0 then ([], .error .toleranceNotPositive)
  else if pointLimit < fids.length then ([], .error .overPointLimit)
  else
    match clusterFn pts with
    | none => ([], .error .clusterFailed)
    | some y => (featureWrites fids y, .ok (firsts y).length)

/-- Embedding of `HierarchicalClusteringByIdentifier.processAlgorithm`
(lines 482-618): the same two validations as the unconstrained path
(lines 505-508 and 518-531); then the in-source constrained-distance
computation — compress the pairwise matrix, decompress, mask
cross-identifier entries to infinity, recompress (lines 556-566; the
compress/decompress round-trip around the mask is exact, see the
squareform round-trip theorem) — and the delegated `linkage`/`fcluster`
calls on the condensed constrained matrix (lines 569-576), whose
failure modes (unsupported metric, out-of-range or degenerate input,
any scipy exception) the `linkFn` argument surfaces as `none`; only
then the write loop and the NUM_CLUSTERS report (lines 596-615).  The
first component is the write log; every failure path precedes the
write loop. -/
def byIdProcess (tolerance : ℚ) (criterion : Criterion) (pointLimit : ℕ)
    (fids : List ℤ) (pts : List Pt) (ids : List ℤ) (dFn : Pt → Pt → Dist)
    (linkFn : List Dist → Option (List ℕ)) :
    List (ℤ × ℕ) × Except ProcError ℕ :=
  if tolerance ≤ 0 then ([], .error .toleranceNotPositive)
  else if pointLimit < fids.length then ([], .error .overPointLimit)
  else
    match linkFn (squareToCondensed pts.length
        (constrainSquare
          (fun a b => dFn (pts.getD a (0, 0)) (pts.getD b (0, 0)))
          (fun a => ids.getD a 0))) with
    | none => ([], .error .clusterFailed)
    | some y => (featureWrites fids y, .ok (firsts y).length)

/-- Embedding of `KMeansClustering.processAlgorithm` (lines 324-441):
the method validates only that K is a whole number (lines 344-347); it
never reads the plugin point limit — the `pointLimit` argument is
accepted and unread, mirroring the source, which contains no limit
check on this path.  It then delegates to the external `kmeans2` call
(line 380), whose failure modes (K out of range, numerical degeneracy,
any scipy exception) the `kmFn` argument surfaces as `none`; on success
it writes one labelled feature per input feature and one feature per
returned centroid, and reports `len(np.unique(y))` (lines 384-438). -/
def kmeansProcess (kParam : ℚ) (pointLimit : ℕ) (fids : List ℤ) (pts : List Pt)
    (kmFn : List Pt → ℕ → Option (List ℕ × List Pt)) :
    (List (ℤ × ℕ) × List (Pt × ℕ)) × Except ProcError ℕ :=
  if kParam.den ≠ 1 then (([], []), .error .kNotInteger)
  else
    match kmFn pts kParam.num.toNat with
    | none => (([], []), .error .clusterFailed)
    | some yc =>
      ((featureWrites fids yc.1, yc.2.enum.map fun ic => (ic.2, ic.1)),
        .ok (firsts yc.1).length)

/-- The threshold-validation condition asserted by the claim for the
flat-cluster extraction (spec 4.4): non-positive threshold only for the
`distance`/`inconsistent` criteria, or a `maxclust` target above `n` or
below 1. -/
def specC8Condition (tolerance : ℚ) (criterion : Criterion) (n : ℕ) : Prop :=
  (tolerance ≤ 0 ∧ (criterion = .distance ∨ criterion = .inconsistent)) ∨
  (criterion = .maxclust ∧ ((n : ℚ) < tolerance ∨ tolerance < 1))

theorem dmin_nil : dmin [] = ⊤ := rfl

theorem dmin_cons (a : Dist) (l : List Dist) : dmin (a :: l) = min a (dmin l) := rfl

theorem dmin_le_mem {l : List Dist} {x : Dist} (hx : x ∈ l) : dmin l ≤ x := by
  induction l with
  | nil => cases hx
  | cons a t ih =>
    rcases List.mem_cons.mp hx with h | h
    · subst h; exact min_le_left _ _
    · exact le_trans (min_le_right _ _) (ih h)

theorem le_dmin {l : List Dist} {c : Dist} (h : ∀ x ∈ l, c ≤ x) : c ≤ dmin l := by
  induction l with
  | nil => exact le_top
  | cons a t ih =>
    exact le_min (h a (List.mem_cons_self a t)) (ih fun x hx => h x (List.mem_cons_of_mem a hx))

theorem dmin_eq_top {l : List Dist} (h : ∀ x ∈ l, x = ⊤) : dmin l = ⊤ :=
  top_le_iff.mp (le_dmin fun x hx => (h x hx).ge)

theorem dmin_mem_or_top (l : List Dist) : dmin l ∈ l ∨ dmin l = ⊤ := by
  induction l with
  | nil => exact Or.inr rfl
  | cons a t ih =>
    rw [dmin_cons]
    rcases le_total a (dmin t) with h | h
    · exact Or.inl (by simp [min_eq_left h])
    · rw [min_eq_right h]
      rcases ih with h' | h'
      · exact Or.inl (List.mem_cons_of_mem a h')
      · exact Or.inr h'

theorem dmin_append (l₁ l₂ : List Dist) :
    dmin (l₁ ++ l₂) = min (dmin l₁) (dmin l₂) := by
  induction l₁ with
  | nil => simp [dmin_nil, dmin]
  | cons a t ih =>
    simp only [List.cons_append, dmin_cons, ih, min_assoc]

theorem dmin_ne_top_exists {l : List Dist} (h : dmin l ≠ ⊤) : ∃ x ∈ l, x ≠ ⊤ := by
  by_contra hc
  push_neg at hc
  exact h (dmin_eq_top hc)

theorem mem_upperPairs {n : ℕ} {p : ℕ × ℕ} :
    p ∈ upperPairs n ↔ p.1 < p.2 ∧ p.2 < n := by
  cases p with
  | mk a b =>
    simp only [upperPairs, List.mem_flatMap, List.mem_map, List.mem_filter, List.mem_range,
      decide_eq_true_eq]
    constructor
    · rintro ⟨i, _, j, ⟨hj, hij⟩, hpe⟩
      cases hpe
      exact ⟨hij, hj⟩
    · rintro ⟨hab, hbn⟩
      exact ⟨a, lt_trans hab hbn, b, ⟨hbn, hab⟩, rfl⟩

theorem nodup_upperPairs (n : ℕ) : (upperPairs n).Nodup := by
  rw [upperPairs, List.nodup_flatMap]
  constructor
  · intro i _
    exact List.Nodup.map (fun a b h => by injection h) (List.Nodup.filter _ (List.nodup_range n))
  · have : List.Pairwise (· ≠ ·) (List.range n) := List.nodup_range n
    refine this.imp ?_
    intro i j hij
    simp only [Function.onFun, List.Disjoint]
    rintro ⟨a, b⟩ ha hb
    rcases List.mem_map.mp ha with ⟨x, _, hx⟩
    rcases List.mem_map.mp hb with ⟨y, _, hy⟩
    cases hx; cases hy
    exact hij rfl

theorem sum_map_range (n : ℕ) (f : ℕ → ℕ) :
    ((List.range n).map f).sum = ∑ i ∈ Finset.range n, f i := by
  induction n with
  | zero => simp
  | succ m ih =>
    rw [List.range_succ, List.map_append, List.sum_append, ih, Finset.sum_range_succ]
    simp

theorem upperPairs_length (n : ℕ) : (upperPairs n).length = n * (n - 1) / 2 := by
  have hrow : ∀ i, (((List.range n).filter fun j => decide (i < j))).length = n - (i + 1) := by
    intro i
    induction n with
    | zero => simp
    | succ m ih =>
      rw [List.range_succ, List.filter_append, List.length_append, ih]
      by_cases h : i < m
      · simp only [List.filter_cons, decide_eq_true_eq, h, if_true, List.filter_nil]
        simp only [List.length_cons, List.length_nil]
        omega
      · simp only [List.filter_cons, decide_eq_true_eq, h, if_false, List.filter_nil,
          List.length_nil]
        omega
  rw [upperPairs, List.length_flatMap]
  have hmap : (List.map (List.length ∘ fun i =>
      ((List.range n).filter fun j => decide (i < j)).map fun j => (i, j)) (List.range n))
      = (List.range n).map fun i => n - (i + 1) := by
    apply List.map_congr_left
    intro i _
    simp only [Function.comp_apply, List.length_map]
    exact hrow i
  rw [hmap, sum_map_range]
  have hreflect := Finset.sum_range_reflect (fun j => n - (j + 1)) n
  have hid : ∑ j ∈ Finset.range n, (n - (n - 1 - j + 1)) = ∑ j ∈ Finset.range n, j := by
    apply Finset.sum_congr rfl
    intro j hj
    have := Finset.mem_range.mp hj
    omega
  have hgauss := Finset.sum_range_id_mul_two n
  omega

theorem posOf_getElem {α : Type} [DecidableEq α] {l : List α}
    (hnd : l.Nodup) (k : ℕ) (hk : k < l.length) :
    posOf l[k] l = k := by
  induction l generalizing k with
  | nil => cases hk
  | cons a t ih =>
    rcases List.nodup_cons.mp hnd with ⟨ha, ht⟩
    cases k with
    | zero => simp [posOf]
    | succ m =>
      have hm : m < t.length := by
        simpa [List.length_cons] using hk
      have hmem : t[m] ∈ t := List.getElem_mem hm
      have hne : a ≠ t[m] := fun h => ha (h ▸ hmem)
      simp only [List.getElem_cons_succ, posOf, if_neg hne]
      rw [ih ht m hm]

theorem posOf_lt_length {α : Type} [DecidableEq α] {l : List α} {p : α} (hp : p ∈ l) :
    posOf p l < l.length := by
  induction l with
  | nil => cases hp
  | cons a t ih =>
    by_cases h : a = p
    · simp [posOf, h]
    · rcases List.mem_cons.mp hp with h' | h'
      · exact absurd h'.symm h
      · simp only [posOf, if_neg h, List.length_cons]
        exact Nat.succ_lt_succ (ih h')

theorem getElem_posOf {α : Type} [DecidableEq α] {l : List α} {p : α} (hp : p ∈ l)
    (h : posOf p l < l.length) : l[posOf p l] = p := by
  induction l with
  | nil => cases hp
  | cons a t ih =>
    by_cases hap : a = p
    · simp [posOf, hap]
    · rcases List.mem_cons.mp hp with h' | h'
      · exact absurd h'.symm hap
      · simp only [posOf, if_neg hap, List.getElem_cons_succ]
        have ht : posOf p t < t.length := posOf_lt_length h'
        exact ih h' ht

theorem condensedToSquare_diag (n : ℕ) (v : List Dist) (i : ℕ) :
    condensedToSquare n v i i = 0 := by
  simp [condensedToSquare]

theorem squareToCondensed_condensedToSquare (n : ℕ) (v : List Dist)
    (hv : v.length = n * (n - 1) / 2) :
    squareToCondensed n (condensedToSquare n v) = v := by
  have hlen : (upperPairs n).length = v.length := by rw [upperPairs_length, hv]
  apply List.ext_getElem
  · rw [squareToCondensed, List.length_map, hlen]
  · intro k h₁ h₂
    simp only [squareToCondensed, List.getElem_map] at h₁ ⊢
    have hk : k < (upperPairs n).length := by
      simpa [squareToCondensed, List.length_map] using h₁
    have hmem : (upperPairs n)[k] ∈ upperPairs n := List.getElem_mem hk
    have hij := (mem_upperPairs (n := n)).mp hmem
    have hne : (upperPairs n)[k].1 ≠ (upperPairs n)[k].2 := Nat.ne_of_lt hij.1
    simp only [condensedToSquare, if_neg hne, if_pos hij.1]
    have hidx : posOf ((upperPairs n)[k].1, (upperPairs n)[k].2) (upperPairs n) = k := by
      have := posOf_getElem (nodup_upperPairs n) k hk
      simpa using this
    rw [hidx, List.getD_eq_getElem v 0 h₂]

theorem condensedToSquare_squareToCondensed (n : ℕ) (m : ℕ → ℕ → Dist)
    (hsym : ∀ i j, i < n → j < n → m i j = m j i)
    (hdiag : ∀ i, i < n → m i i = 0) :
    ∀ i j, i < n → j < n → condensedToSquare n (squareToCondensed n m) i j = m i j := by
  have key : ∀ i j, i < j → j < n →
      (squareToCondensed n m).getD (posOf (i, j) (upperPairs n)) 0 = m i j := by
    intro i j hij hjn
    have hmem : (i, j) ∈ upperPairs n := mem_upperPairs.mpr ⟨hij, hjn⟩
    have hlt : posOf (i, j) (upperPairs n) < (upperPairs n).length :=
      posOf_lt_length hmem
    have hlt' : posOf (i, j) (upperPairs n) < (squareToCondensed n m).length := by
      rw [squareToCondensed, List.length_map]; exact hlt
    rw [List.getD_eq_getElem _ 0 hlt']
    simp only [squareToCondensed, List.getElem_map]
    rw [getElem_posOf hmem hlt]
  intro i j hin hjn
  simp only [condensedToSquare]
  by_cases hij : i = j
  · subst hij
    rw [if_pos rfl, hdiag i hin]
  · rw [if_neg hij]
    by_cases hlt : i < j
    · rw [if_pos hlt]
      exact key i j hlt hjn
    · rw [if_neg hlt]
      have hji : j < i := by omega
      rw [key j i hji hin]
      exact (hsym i j hin hjn).symm

theorem firstsGo_congr {α : Type} [DecidableEq α] :
    ∀ (f₁ : ℕ) (l : List α) (f₂ : ℕ), l.length ≤ f₁ → l.length ≤ f₂ →
      firstsGo f₁ l = firstsGo f₂ l := by
  intro f₁
  induction f₁ with
  | zero =>
    intro l f₂ h₁ _
    cases l with
    | nil => cases f₂ <;> rfl
    | cons a t => simp at h₁
  | succ g ih =>
    intro l f₂ h₁ h₂
    cases l with
    | nil => cases f₂ <;> rfl
    | cons a t =>
      cases f₂ with
      | zero => simp at h₂
      | succ g₂ =>
        show a :: firstsGo g (t.filter fun x => decide (x ≠ a))
          = a :: firstsGo g₂ (t.filter fun x => decide (x ≠ a))
        congr 1
        have hf : (t.filter fun x => decide (x ≠ a)).length ≤ t.length :=
          List.length_filter_le _ _
        apply ih
        · simp only [List.length_cons] at h₁; omega
        · simp only [List.length_cons] at h₂; omega

theorem firsts_nil {α : Type} [DecidableEq α] : firsts ([] : List α) = [] := rfl

theorem firsts_cons {α : Type} [DecidableEq α] (a : α) (l : List α) :
    firsts (a :: l) = a :: firsts (l.filter fun x => decide (x ≠ a)) := by
  show a :: firstsGo l.length (l.filter fun x => decide (x ≠ a))
    = a :: firstsGo (l.filter fun x => decide (x ≠ a)).length
        (l.filter fun x => decide (x ≠ a))
  congr 1
  exact firstsGo_congr l.length _ _ (List.length_filter_le _ _) (le_refl _)

theorem firsts_rec {α : Type} [DecidableEq α] {motive : List α → Prop}
    (h0 : motive ([] : List α))
    (h1 : ∀ a l, motive (l.filter fun x => decide (x ≠ a)) → motive (a :: l)) :
    ∀ l, motive l := by
  have key : ∀ (n : ℕ) (l : List α), l.length ≤ n → motive l := by
    intro n
    induction n with
    | zero =>
      intro l h
      cases l with
      | nil => exact h0
      | cons a t => simp at h
    | succ m ih =>
      intro l h
      cases l with
      | nil => exact h0
      | cons a t =>
        apply h1
        apply ih
        have := List.length_filter_le (fun x => decide (x ≠ a)) t
        simp only [List.length_cons] at h
        omega
  intro l
  exact key l.length l (le_refl _)

theorem mem_firsts {α : Type} [DecidableEq α] {x : α} :
    ∀ {l : List α}, x ∈ firsts l ↔ x ∈ l := by
  intro l
  induction l using firsts_rec with
  | h0 => simp [firsts_nil]
  | h1 a t ih =>
    rw [firsts_cons]
    by_cases hxa : x = a
    · subst hxa; simp
    · simp only [List.mem_cons, hxa, false_or]
      rw [ih]
      simp [List.mem_filter, hxa]

theorem nodup_firsts {α : Type} [DecidableEq α] :
    ∀ (l : List α), (firsts l).Nodup := by
  intro l
  induction l using firsts_rec with
  | h0 => simp [firsts_nil]
  | h1 a t ih =>
    rw [firsts_cons, List.nodup_cons]
    refine ⟨fun hmem => ?_, ih⟩
    have := mem_firsts.mp hmem
    rcases List.mem_filter.mp this with ⟨_, hne⟩
    simp at hne

theorem firsts_map {α β : Type} [DecidableEq α] [DecidableEq β]
    (f : α → β) : ∀ (l : List α), (∀ x ∈ l, ∀ y ∈ l, f x = f y → x = y) →
    firsts (l.map f) = (firsts l).map f := by
  intro l
  induction l using firsts_rec with
  | h0 => intro _; simp [firsts_nil]
  | h1 a t ih =>
    intro hinj
    rw [List.map_cons, firsts_cons, firsts_cons, List.map_cons]
    congr 1
    have hfilter : (t.map f).filter (fun y => decide (y ≠ f a))
        = (t.filter fun x => decide (x ≠ a)).map f := by
      rw [List.filter_map]
      congr 1
      apply List.filter_congr
      intro x hx
      simp only [Function.comp_apply, decide_eq_decide]
      constructor
      · intro hfx hxa; exact hfx (hxa ▸ rfl)
      · intro hxa hfx
        exact hxa (hinj x (List.mem_cons_of_mem a hx) a (List.mem_cons_self a t) hfx)
    rw [hfilter]
    apply ih
    intro x hx y hy
    exact hinj x (List.mem_cons_of_mem a (List.mem_of_mem_filter hx))
      y (List.mem_cons_of_mem a (List.mem_of_mem_filter hy))

theorem relabel_inj_on {α : Type} [DecidableEq α] (l : List α) :
    ∀ x ∈ l, ∀ y ∈ l, posOf x (firsts l) + 1 = posOf y (firsts l) + 1 → x = y := by
  intro x hx y hy h
  have hx' : x ∈ firsts l := mem_firsts.mpr hx
  have hy' : y ∈ firsts l := mem_firsts.mpr hy
  have hxl := posOf_lt_length hx'
  have hyl := posOf_lt_length hy'
  have heq : posOf x (firsts l) = posOf y (firsts l) := by omega
  have h1 : (firsts l).get ⟨posOf x (firsts l), hxl⟩ = x := by
    simpa [List.get_eq_getElem] using getElem_posOf hx' hxl
  have h2 : (firsts l).get ⟨posOf y (firsts l), hyl⟩ = y := by
    simpa [List.get_eq_getElem] using getElem_posOf hy' hyl
  have h3 : (⟨posOf x (firsts l), hxl⟩ : Fin (firsts l).length)
      = ⟨posOf y (firsts l), hyl⟩ := Fin.ext heq
  rw [← h1, h3, h2]

theorem firsts_relabel {α : Type} [DecidableEq α] (l : List α) :
    firsts (relabel l) = List.range' 1 (firsts l).length := by
  rw [relabel, firsts_map _ l (relabel_inj_on l)]
  apply List.ext_getElem
  · simp [List.length_range']
  · intro k h₁ h₂
    have hk : k < (firsts l).length := by simpa using h₁
    rw [List.getElem_map, List.getElem_range']
    rw [posOf_getElem (nodup_firsts l) k hk]
    omega

theorem relabel_length {α : Type} [DecidableEq α] (l : List α) :
    (relabel l).length = l.length := by
  rw [relabel, List.length_map]

theorem relabel_getElem_ne {α : Type} [DecidableEq α] (l : List α)
    {i j : ℕ} (hi : i < l.length) (hj : j < l.length) (hne : l[i] ≠ l[j]) :
    (relabel l).getD i 0 ≠ (relabel l).getD j 0 := by
  have hi' : i < (relabel l).length := by rw [relabel_length]; exact hi
  have hj' : j < (relabel l).length := by rw [relabel_length]; exact hj
  rw [List.getD_eq_getElem _ 0 hi', List.getD_eq_getElem _ 0 hj']
  simp only [relabel, List.getElem_map]
  intro h
  exact hne (relabel_inj_on l l[i] (List.getElem_mem hi) l[j] (List.getElem_mem hj) h)

theorem constrainSquare_cross {α : Type} [DecidableEq α]
    (m : ℕ → ℕ → Dist) (ids : ℕ → α) {i j : ℕ} (h : ids i ≠ ids j) :
    constrainSquare m ids i j = ⊤ := by
  have hji : ids j ≠ ids i := fun h' => h h'.symm
  simp [constrainSquare, hji]

theorem constrainSquare_same {α : Type} [DecidableEq α]
    (m : ℕ → ℕ → Dist) (ids : ℕ → α) {i j : ℕ} (h : ids i = ids j) :
    constrainSquare m ids i j = m i j := by
  simp [constrainSquare, h]

theorem constrainSquare_ne_top {α : Type} [DecidableEq α]
    {m : ℕ → ℕ → Dist} {ids : ℕ → α} {i j : ℕ}
    (h : constrainSquare m ids i j ≠ ⊤) : ids i = ids j := by
  by_contra hne
  exact h (constrainSquare_cross m ids hne)

theorem mem_pairList {d : ℕ → ℕ → Dist} {C D : List ℕ} {x : Dist} :
    x ∈ (C.flatMap fun i => D.map fun j => d i j) ↔ ∃ i ∈ C, ∃ j ∈ D, d i j = x := by
  simp only [List.mem_flatMap, List.mem_map]

theorem clusterDist_le {d : ℕ → ℕ → Dist} {C D : List ℕ} {i j : ℕ}
    (hi : i ∈ C) (hj : j ∈ D) : clusterDist d C D ≤ d i j :=
  dmin_le_mem (mem_pairList.mpr ⟨i, hi, j, hj, rfl⟩)

theorem clusterDist_ne_top_exists {d : ℕ → ℕ → Dist} {C D : List ℕ}
    (h : clusterDist d C D ≠ ⊤) : ∃ i ∈ C, ∃ j ∈ D, d i j ≠ ⊤ := by
  rcases dmin_ne_top_exists h with ⟨x, hx, hxt⟩
  rcases mem_pairList.mp hx with ⟨i, hi, j, hj, he⟩
  exact ⟨i, hi, j, hj, he ▸ hxt⟩

theorem clusterDist_eq_top {d : ℕ → ℕ → Dist} {C D : List ℕ}
    (h : ∀ i ∈ C, ∀ j ∈ D, d i j = ⊤) : clusterDist d C D = ⊤ := by
  apply dmin_eq_top
  intro x hx
  rcases mem_pairList.mp hx with ⟨i, hi, j, hj, he⟩
  exact he ▸ h i hi j hj

theorem clusterDist_symm {d : ℕ → ℕ → Dist} (hd : ∀ i j, d i j = d j i)
    (C D : List ℕ) : clusterDist d C D = clusterDist d D C := by
  have half : ∀ X Y : List ℕ, clusterDist d X Y ≤ clusterDist d Y X := by
    intro X Y
    apply le_dmin
    intro x hx
    rcases mem_pairList.mp hx with ⟨j, hj, i, hi, he⟩
    calc clusterDist d X Y ≤ d i j := clusterDist_le hi hj
      _ = x := by rw [hd i j, he]
  exact le_antisymm (half C D) (half D C)

theorem clusterDist_append_left (d : ℕ → ℕ → Dist) (A B E : List ℕ) :
    clusterDist d (A ++ B) E = min (clusterDist d A E) (clusterDist d B E) := by
  rw [clusterDist, List.flatMap_append, dmin_append]
  rfl

theorem clusterDist_append_right (d : ℕ → ℕ → Dist) (E A B : List ℕ) :
    clusterDist d E (A ++ B) = min (clusterDist d E A) (clusterDist d E B) := by
  induction E with
  | nil => simp [clusterDist, dmin_nil]
  | cons e E ih =>
    simp only [clusterDist, List.flatMap_cons, dmin_append, List.map_append] at ih ⊢
    rw [ih, min_min_min_comm]

theorem foldl_pick_spec (f : ℕ × ℕ → Dist) :
    ∀ (ps : List (ℕ × ℕ)) (b : (ℕ × ℕ) × Dist), b.2 = f b.1 →
      ((ps.foldl (fun best q => if f q < best.2 then (q, f q) else best) b) = b ∨
        (ps.foldl (fun best q => if f q < best.2 then (q, f q) else best) b).1 ∈ ps) ∧
      (ps.foldl (fun best q => if f q < best.2 then (q, f q) else best) b).2 =
        f (ps.foldl (fun best q => if f q < best.2 then (q, f q) else best) b).1 ∧
      (ps.foldl (fun best q => if f q < best.2 then (q, f q) else best) b).2 ≤ b.2 ∧
      ∀ q ∈ ps, (ps.foldl (fun best q => if f q < best.2 then (q, f q) else best) b).2 ≤ f q := by
  intro ps
  induction ps with
  | nil =>
    intro b hb
    refine ⟨Or.inl rfl, hb, le_refl _, ?_⟩
    intro q hq; cases hq
  | cons p ps ih =>
    intro b hb
    simp only [List.foldl_cons]
    by_cases hcmp : f p < b.2
    · rw [if_pos hcmp]
      rcases ih (p, f p) rfl with ⟨hmem, heq, hle, hall⟩
      refine ⟨?_, heq, ?_, ?_⟩
      · rcases hmem with h | h
        · exact Or.inr (by rw [h]; exact List.mem_cons_self p ps)
        · exact Or.inr (List.mem_cons_of_mem p h)
      · exact le_trans hle (le_of_lt hcmp)
      · intro q hq
        rcases List.mem_cons.mp hq with h | h
        · subst h; exact hle
        · exact hall q h
    · rw [if_neg hcmp]
      rcases ih b hb with ⟨hmem, heq, hle, hall⟩
      refine ⟨?_, heq, hle, ?_⟩
      · rcases hmem with h | h
        · exact Or.inl h
        · exact Or.inr (List.mem_cons_of_mem p h)
      · intro q hq
        rcases List.mem_cons.mp hq with h | h
        · subst h
          exact le_trans hle (not_lt.mp hcmp)
        · exact hall q h

theorem pickMin_spec (D : List ℕ → List ℕ → Dist) (cs : List (List ℕ))
    (h2 : 2 ≤ cs.length) :
    (pickMin D cs).1 ∈ upperPairs cs.length ∧
    (pickMin D cs).2
      = D (cs.getD (pickMin D cs).1.1 []) (cs.getD (pickMin D cs).1.2 []) ∧
    ∀ q ∈ upperPairs cs.length,
      (pickMin D cs).2 ≤ D (cs.getD q.1 []) (cs.getD q.2 []) := by
  have h01 : ((0 : ℕ), (1 : ℕ)) ∈ upperPairs cs.length :=
    mem_upperPairs.mpr ⟨Nat.zero_lt_one, h2⟩
  have hps := foldl_pick_spec (fun q => D (cs.getD q.1 []) (cs.getD q.2 []))
    (upperPairs cs.length) ((0, 1), D (cs.getD 0 []) (cs.getD 1 [])) rfl
  rcases hps with ⟨hmem, heq, _, hall⟩
  refine ⟨?_, heq, hall⟩
  rcases hmem with h | h
  · rw [pickMin, h]
    exact h01
  · exact h

theorem mem_removeTwo {cs : List (List ℕ)} {a b : ℕ} (hab : a < b) (hb : b < cs.length)
    {x : List ℕ} (hx : x ∈ (cs.eraseIdx b).eraseIdx a) :
    ∃ p, p < cs.length ∧ p ≠ a ∧ p ≠ b ∧ cs.getD p [] = x := by
  rcases List.mem_iff_getElem.mp hx with ⟨k, hk, hke⟩
  have hlen1 : (cs.eraseIdx b).length = cs.length - 1 := by
    rw [List.length_eraseIdx, if_pos hb]
  have hlen2 : ((cs.eraseIdx b).eraseIdx a).length = cs.length - 2 := by
    rw [List.length_eraseIdx, hlen1, if_pos (by omega)]
    omega
  have hk2 : k < cs.length - 2 := by rw [hlen2] at hk; exact hk
  by_cases hka : k < a
  · have e1 : ((cs.eraseIdx b).eraseIdx a)[k] = (cs.eraseIdx b)[k]
      := List.getElem_eraseIdx_of_lt _ _ _ hk hka
    have hkb : k < b := lt_trans hka hab
    have hk1 : k < (cs.eraseIdx b).length := by omega
    have e2 : (cs.eraseIdx b)[k] = cs[k] := List.getElem_eraseIdx_of_lt _ _ _ hk1 hkb
    refine ⟨k, by omega, by omega, by omega, ?_⟩
    rw [List.getD_eq_getElem cs [] (by omega : k < cs.length)]
    rw [e1, e2] at hke
    exact hke
  · have e1 : ((cs.eraseIdx b).eraseIdx a)[k] = (cs.eraseIdx b)[k + 1]
      := List.getElem_eraseIdx_of_ge _ _ _ hk (not_lt.mp hka)
    have hk1 : k + 1 < (cs.eraseIdx b).length := by omega
    by_cases hkb : k + 1 < b
    · have e2 : (cs.eraseIdx b)[k + 1] = cs[k + 1] :=
        List.getElem_eraseIdx_of_lt _ _ _ hk1 hkb
      refine ⟨k + 1, by omega, by omega, by omega, ?_⟩
      rw [List.getD_eq_getElem cs [] (by omega : k + 1 < cs.length)]
      rw [e1, e2] at hke
      exact hke
    · have e2 : (cs.eraseIdx b)[k + 1] = cs[k + 2] :=
        List.getElem_eraseIdx_of_ge _ _ _ hk1 (by omega)
      refine ⟨k + 2, by omega, by omega, by omega, ?_⟩
      rw [List.getD_eq_getElem cs [] (by omega : k + 2 < cs.length)]
      rw [e1, e2] at hke
      exact hke

theorem mem_removeTwo_mem {cs : List (List ℕ)} {a b : ℕ}
    {x : List ℕ} (hx : x ∈ (cs.eraseIdx b).eraseIdx a) : x ∈ cs :=
  List.Sublist.mem hx (List.Sublist.trans (List.eraseIdx_sublist _ a) (List.eraseIdx_sublist _ b))

theorem pairDisj_symm {C D : List ℕ} (h : PairDisj C D) : PairDisj D C :=
  fun x hxD hxC => h x hxC hxD

theorem pairDisj_ne {C D : List ℕ} (h : PairDisj C D) (hC : C ≠ []) : C ≠ D := by
  intro he
  rcases List.exists_mem_of_ne_nil C hC with ⟨x, hx⟩
  exact h x hx (he ▸ hx)

theorem getD_mem {cs : List (List ℕ)} {p : ℕ} (hp : p < cs.length) :
    cs.getD p [] ∈ cs := by
  rw [List.getD_eq_getElem cs [] hp]
  exact List.getElem_mem hp

theorem pairwise_getD {cs : List (List ℕ)} (hd : List.Pairwise PairDisj cs)
    {p q : ℕ} (hp : p < cs.length) (hq : q < cs.length) (hpq : p ≠ q) :
    PairDisj (cs.getD p []) (cs.getD q []) := by
  rw [List.getD_eq_getElem cs [] hp, List.getD_eq_getElem cs [] hq]
  rcases lt_or_gt_of_ne hpq with h | h
  · exact (List.pairwise_iff_getElem.mp hd) p q hp hq h
  · exact pairDisj_symm ((List.pairwise_iff_getElem.mp hd) q p hq hp h)

theorem clusterDist_singleton (d : ℕ → ℕ → Dist) (i j : ℕ) :
    clusterDist d [i] [j] = d i j := by
  show dmin [d i j] = d i j
  rw [dmin_cons, dmin_nil]
  simp

theorem mixedIds_symm {α : Type} [DecidableEq α] {ids : ℕ → α} {C E : List ℕ}
    (h : MixedIds ids C E) : MixedIds ids E C := by
  obtain ⟨x, hx, y, hy, hxy⟩ := h
  exact ⟨y, hy, x, hx, fun he => hxy he.symm⟩

theorem mixed_sub {α : Type} [DecidableEq α] {ids : ℕ → α} {S C P : List ℕ}
    (hP : ∀ x ∈ P, x ∈ S) (hPne : P ≠ []) (hhom : Homog ids S)
    (hmix : MixedIds ids C S) : MixedIds ids P C := by
  obtain ⟨x, hx, y, hy, hxy⟩ := hmix
  obtain ⟨u, hu⟩ := List.exists_mem_of_ne_nil P hPne
  refine ⟨u, hu, x, hx, ?_⟩
  intro he
  exact hxy (he.symm.trans (hhom u (hP u hu) y hy))

theorem updDist_old {upd : UpdateRule} {D : List ℕ → List ℕ → Dist} {A B C E : List ℕ}
    (hC : C ≠ A ++ B) (hE : E ≠ A ++ B) : updDist upd D A B C E = D C E := by
  rw [updDist, if_neg hC, if_neg hE]

theorem updDist_newL {upd : UpdateRule} {D : List ℕ → List ℕ → Dist} {A B E : List ℕ}
    (hE : E ≠ A ++ B) :
    updDist upd D A B (A ++ B) E = upd A B E (D A E) (D B E) (D A B) := by
  rw [updDist, if_pos rfl, if_neg hE]

theorem updDist_newR {upd : UpdateRule} {D : List ℕ → List ℕ → Dist} {A B C : List ℕ}
    (hC : C ≠ A ++ B) :
    updDist upd D A B C (A ++ B) = upd A B C (D A C) (D B C) (D A B) := by
  rw [updDist, if_neg hC, if_pos rfl]

theorem removeTwo_ne_merge {cs : List (List ℕ)} {a b : ℕ} (hab : a < b)
    (hb : b < cs.length) (hne : ∀ C ∈ cs, C ≠ [])
    (hdisj : List.Pairwise PairDisj cs) {C : List ℕ}
    (hC : C ∈ (cs.eraseIdx b).eraseIdx a) :
    PairDisj C (cs.getD a []) ∧ PairDisj C (cs.getD b []) ∧
      C ≠ cs.getD a [] ++ cs.getD b [] := by
  have ha : a < cs.length := lt_trans hab hb
  obtain ⟨p, hp, hpa, hpb, hpe⟩ := mem_removeTwo hab hb hC
  have h1 : PairDisj (cs.getD p []) (cs.getD a []) := pairwise_getD hdisj hp ha hpa
  have h2 : PairDisj (cs.getD p []) (cs.getD b []) := pairwise_getD hdisj hp hb hpb
  rw [hpe] at h1 h2
  refine ⟨h1, h2, ?_⟩
  intro he
  rcases List.exists_mem_of_ne_nil _ (hne _ (getD_mem ha)) with ⟨x, hx⟩
  have hxC : x ∈ C := by
    rw [he]
    exact List.mem_append.mpr (Or.inl hx)
  exact h1 x hxC hx

theorem posTop_of_pickMin_top {s : AggState} (h2 : 2 ≤ s.clusters.length)
    (hsym : ∀ C ∈ s.clusters, ∀ E ∈ s.clusters, s.dist C E = s.dist E C)
    (htop : (pickMin s.dist s.clusters).2 = ⊤) :
    ∀ p q, p < s.clusters.length → q < s.clusters.length → p ≠ q →
      s.dist (s.clusters.getD p []) (s.clusters.getD q []) = ⊤ := by
  obtain ⟨_, _, hmin⟩ := pickMin_spec s.dist s.clusters h2
  have half : ∀ p q, p < q → q < s.clusters.length →
      s.dist (s.clusters.getD p []) (s.clusters.getD q []) = ⊤ := by
    intro p q hpq hq
    have hle := hmin (p, q) (mem_upperPairs.mpr ⟨hpq, hq⟩)
    rw [htop] at hle
    exact top_le_iff.mp hle
  intro p q hp hq hpq
  rcases lt_or_gt_of_ne hpq with hlt | hlt
  · exact half p q hlt hq
  · rw [hsym _ (getD_mem hp) _ (getD_mem hq)]
    exact half q p hlt hp

theorem topClosed_nil : TopClosed [] := by
  intro k₁ k₂ h₁ h₂ hle htop
  exact absurd h₁ (Nat.not_lt_zero k₁)

theorem topClosed_of_all_finite {merges : List (List ℕ × Dist)}
    (h : ∀ p ∈ merges, p.2 ≠ ⊤) : TopClosed merges := by
  intro k₁ k₂ h₁ h₂ hle htop
  exact absurd htop (h _ (List.getElem_mem h₁))

theorem topClosed_append_top {merges : List (List ℕ × Dist)} {S : List ℕ}
    (h : TopClosed merges) : TopClosed (merges ++ [(S, ⊤)]) := by
  intro k₁ k₂ h₁ h₂ hle htop
  have hlen : (merges ++ [(S, ⊤)]).length = merges.length + 1 := by
    rw [List.length_append]
    rfl
  by_cases hk₂ : k₂ < merges.length
  · have hk₁ : k₁ < merges.length := lt_of_le_of_lt hle hk₂
    rw [List.getElem_append_left hk₂]
    rw [List.getElem_append_left hk₁] at htop
    exact h k₁ k₂ hk₁ hk₂ hle htop
  · have hk₂e : merges.length ≤ k₂ := not_lt.mp hk₂
    rw [hlen] at h₂
    have hz : k₂ - merges.length = 0 := by omega
    rw [List.getElem_append_right hk₂e]
    simp [hz]

theorem singleLinkUpdate_topPreserving : TopPreserving singleLinkUpdate := by
  intro A B E dAB
  show (min ⊤ ⊤ : Dist) = ⊤
  rw [min_self]

theorem completeLinkUpdate_topPreserving : TopPreserving completeLinkUpdate := by
  intro A B E dAB
  show (max ⊤ ⊤ : Dist) = ⊤
  rw [max_self]

theorem sat_push {upd : UpdateRule} (hupd : TopPreserving upd) {s : AggState}
    {a b : ℕ} (hab : a < b) (hb : b < s.clusters.length)
    (hne : ∀ C ∈ s.clusters, C ≠ []) (hdisj : List.Pairwise PairDisj s.clusters)
    (hpos : ∀ p q, p < s.clusters.length → q < s.clusters.length → p ≠ q →
      s.dist (s.clusters.getD p []) (s.clusters.getD q []) = ⊤) :
    ∀ C ∈ (s.clusters.eraseIdx b).eraseIdx a
        ++ [s.clusters.getD a [] ++ s.clusters.getD b []],
      ∀ E ∈ (s.clusters.eraseIdx b).eraseIdx a
        ++ [s.clusters.getD a [] ++ s.clusters.getD b []],
      PairDisj C E →
        updDist upd s.dist (s.clusters.getD a []) (s.clusters.getD b []) C E = ⊤ := by
  have ha : a < s.clusters.length := lt_trans hab hb
  intro C hC E hE hdCE
  rcases List.mem_append.mp hC with hC' | hC'
  · obtain ⟨hCa, hCb, hCne⟩ := removeTwo_ne_merge hab hb hne hdisj hC'
    rcases List.mem_append.mp hE with hE' | hE'
    · obtain ⟨hEa, hEb, hEne⟩ := removeTwo_ne_merge hab hb hne hdisj hE'
      obtain ⟨p, hp, hpa, hpb, hpe⟩ := mem_removeTwo hab hb hC'
      obtain ⟨q, hq, hqa, hqb, hqe⟩ := mem_removeTwo hab hb hE'
      have hCD : C ≠ E := pairDisj_ne hdCE (hne C (mem_removeTwo_mem hC'))
      have hpq : p ≠ q := by
        intro hpq
        apply hCD
        rw [← hpe, ← hqe, hpq]
      rw [updDist_old hCne hEne, ← hpe, ← hqe]
      exact hpos p q hp hq hpq
    · have hEe : E = s.clusters.getD a [] ++ s.clusters.getD b [] :=
        List.mem_singleton.mp hE'
      obtain ⟨p, hp, hpa, hpb, hpe⟩ := mem_removeTwo hab hb hC'
      rw [hEe, updDist_newR hCne]
      have hda : s.dist (s.clusters.getD a []) C = ⊤ := by
        rw [← hpe]
        exact hpos a p ha hp fun hh => hpa hh.symm
      have hdb : s.dist (s.clusters.getD b []) C = ⊤ := by
        rw [← hpe]
        exact hpos b p hb hp fun hh => hpb hh.symm
      rw [hda, hdb]
      exact hupd _ _ _ _
  · have hCe : C = s.clusters.getD a [] ++ s.clusters.getD b [] :=
      List.mem_singleton.mp hC'
    rcases List.mem_append.mp hE with hE' | hE'
    · obtain ⟨hEa, hEb, hEne⟩ := removeTwo_ne_merge hab hb hne hdisj hE'
      obtain ⟨q, hq, hqa, hqb, hqe⟩ := mem_removeTwo hab hb hE'
      rw [hCe, updDist_newL hEne]
      have hda : s.dist (s.clusters.getD a []) E = ⊤ := by
        rw [← hqe]
        exact hpos a q ha hq fun hh => hqa hh.symm
      have hdb : s.dist (s.clusters.getD b []) E = ⊤ := by
        rw [← hqe]
        exact hpos b q hb hq fun hh => hqb hh.symm
      rw [hda, hdb]
      exact hupd _ _ _ _
    · exfalso
      have hEe : E = s.clusters.getD a [] ++ s.clusters.getD b [] :=
        List.mem_singleton.mp hE'
      have hCE : C ≠ E := pairDisj_ne hdCE (by
        rw [hCe]
        intro happ
        exact hne _ (getD_mem ha) (List.append_eq_nil.mp happ).1)
      exact hCE (hCe.trans hEe.symm)

theorem symm_push (upd : UpdateRule) {s : AggState} {a b : ℕ} (hab : a < b)
    (hb : b < s.clusters.length) (hne : ∀ C ∈ s.clusters, C ≠ [])
    (hdisj : List.Pairwise PairDisj s.clusters)
    (hsym : ∀ C ∈ s.clusters, ∀ E ∈ s.clusters, s.dist C E = s.dist E C) :
    ∀ C ∈ (s.clusters.eraseIdx b).eraseIdx a
        ++ [s.clusters.getD a [] ++ s.clusters.getD b []],
      ∀ E ∈ (s.clusters.eraseIdx b).eraseIdx a
        ++ [s.clusters.getD a [] ++ s.clusters.getD b []],
      updDist upd s.dist (s.clusters.getD a []) (s.clusters.getD b []) C E =
        updDist upd s.dist (s.clusters.getD a []) (s.clusters.getD b []) E C := by
  intro C hC E hE
  rcases List.mem_append.mp hC with hC' | hC'
  · obtain ⟨hCa, hCb, hCne⟩ := removeTwo_ne_merge hab hb hne hdisj hC'
    rcases List.mem_append.mp hE with hE' | hE'
    · obtain ⟨hEa, hEb, hEne⟩ := removeTwo_ne_merge hab hb hne hdisj hE'
      rw [updDist_old hCne hEne, updDist_old hEne hCne]
      exact hsym C (mem_removeTwo_mem hC') E (mem_removeTwo_mem hE')
    · rw [List.mem_singleton.mp hE', updDist_newR hCne, updDist_newL hCne]
  · have hCe : C = s.clusters.getD a [] ++ s.clusters.getD b [] :=
      List.mem_singleton.mp hC'
    rcases List.mem_append.mp hE with hE' | hE'
    · obtain ⟨hEa, hEb, hEne⟩ := removeTwo_ne_merge hab hb hne hdisj hE'
      rw [hCe, updDist_newL hEne, updDist_newR hEne]
    · rw [hCe, List.mem_singleton.mp hE']

theorem cross_push {α : Type} [DecidableEq α] {upd : UpdateRule} {ids : ℕ → α}
    (hupd : TopPreserving upd) {s : AggState} {a b : ℕ} (hab : a < b)
    (hb : b < s.clusters.length) (hne : ∀ C ∈ s.clusters, C ≠ [])
    (hdisj : List.Pairwise PairDisj s.clusters)
    (hcr : ∀ C ∈ s.clusters, ∀ E ∈ s.clusters, MixedIds ids C E → s.dist C E = ⊤)
    (hhomAB : Homog ids (s.clusters.getD a [] ++ s.clusters.getD b [])) :
    ∀ C ∈ (s.clusters.eraseIdx b).eraseIdx a
        ++ [s.clusters.getD a [] ++ s.clusters.getD b []],
      ∀ E ∈ (s.clusters.eraseIdx b).eraseIdx a
        ++ [s.clusters.getD a [] ++ s.clusters.getD b []],
      MixedIds ids C E →
        updDist upd s.dist (s.clusters.getD a []) (s.clusters.getD b []) C E = ⊤ := by
  have ha : a < s.clusters.length := lt_trans hab hb
  have hAS : ∀ x ∈ s.clusters.getD a [],
      x ∈ s.clusters.getD a [] ++ s.clusters.getD b [] :=
    fun x hx => List.mem_append.mpr (Or.inl hx)
  have hBS : ∀ x ∈ s.clusters.getD b [],
      x ∈ s.clusters.getD a [] ++ s.clusters.getD b [] :=
    fun x hx => List.mem_append.mpr (Or.inr hx)
  have hAne : s.clusters.getD a [] ≠ [] := hne _ (getD_mem ha)
  have hBne : s.clusters.getD b [] ≠ [] := hne _ (getD_mem hb)
  intro C hC E hE hmix
  rcases List.mem_append.mp hC with hC' | hC'
  · obtain ⟨hCa, hCb, hCne⟩ := removeTwo_ne_merge hab hb hne hdisj hC'
    rcases List.mem_append.mp hE with hE' | hE'
    · obtain ⟨hEa, hEb, hEne⟩ := removeTwo_ne_merge hab hb hne hdisj hE'
      rw [updDist_old hCne hEne]
      exact hcr C (mem_removeTwo_mem hC') E (mem_removeTwo_mem hE') hmix
    · rw [List.mem_singleton.mp hE'] at hmix
      rw [List.mem_singleton.mp hE', updDist_newR hCne]
      have hmixAC : MixedIds ids (s.clusters.getD a []) C :=
        mixed_sub hAS hAne hhomAB hmix
      have hmixBC : MixedIds ids (s.clusters.getD b []) C :=
        mixed_sub hBS hBne hhomAB hmix
      have hda : s.dist (s.clusters.getD a []) C = ⊤ :=
        hcr _ (getD_mem ha) C (mem_removeTwo_mem hC') hmixAC
      have hdb : s.dist (s.clusters.getD b []) C = ⊤ :=
        hcr _ (getD_mem hb) C (mem_removeTwo_mem hC') hmixBC
      rw [hda, hdb]
      exact hupd _ _ _ _
  · rw [List.mem_singleton.mp hC'] at hmix
    rcases List.mem_append.mp hE with hE' | hE'
    · obtain ⟨hEa, hEb, hEne⟩ := removeTwo_ne_merge hab hb hne hdisj hE'
      rw [List.mem_singleton.mp hC', updDist_newL hEne]
      have hmixAE : MixedIds ids (s.clusters.getD a []) E :=
        mixed_sub hAS hAne hhomAB (mixedIds_symm hmix)
      have hmixBE : MixedIds ids (s.clusters.getD b []) E :=
        mixed_sub hBS hBne hhomAB (mixedIds_symm hmix)
      have hda : s.dist (s.clusters.getD a []) E = ⊤ :=
        hcr _ (getD_mem ha) E (mem_removeTwo_mem hE') hmixAE
      have hdb : s.dist (s.clusters.getD b []) E = ⊤ :=
        hcr _ (getD_mem hb) E (mem_removeTwo_mem hE') hmixBE
      rw [hda, hdb]
      exact hupd _ _ _ _
    · rw [List.mem_singleton.mp hE'] at hmix
      obtain ⟨x, hx, y, hy, hxy⟩ := hmix
      exact absurd (hhomAB x hx y hy) hxy

theorem push_nonempty {cs : List (List ℕ)} {a b : ℕ}
    (hab : a < b) (hb : b < cs.length) (hne : ∀ C ∈ cs, C ≠ []) :
    ∀ C ∈ (cs.eraseIdx b).eraseIdx a ++ [cs.getD a [] ++ cs.getD b []], C ≠ [] := by
  have ha : a < cs.length := lt_trans hab hb
  intro C hC
  rcases List.mem_append.mp hC with hC' | hC'
  · exact hne C (mem_removeTwo_mem hC')
  · rw [List.mem_singleton.mp hC']
    intro happ
    exact hne _ (getD_mem ha) (List.append_eq_nil.mp happ).1

theorem push_disj {cs : List (List ℕ)} {a b : ℕ}
    (hab : a < b) (hb : b < cs.length) (hdisj : List.Pairwise PairDisj cs) :
    List.Pairwise PairDisj
      ((cs.eraseIdx b).eraseIdx a ++ [cs.getD a [] ++ cs.getD b []]) := by
  have ha : a < cs.length := lt_trans hab hb
  rw [List.pairwise_append]
  refine ⟨?_, List.pairwise_singleton _ _, ?_⟩
  · exact List.Pairwise.sublist
      (List.Sublist.trans (List.eraseIdx_sublist _ a) (List.eraseIdx_sublist _ b)) hdisj
  · intro y hy z hz
    rw [List.mem_singleton.mp hz]
    obtain ⟨p, hp, hpa, hpb, hpe⟩ := mem_removeTwo hab hb hy
    intro x hxy hxAB
    rcases List.mem_append.mp hxAB with hxA | hxB
    · exact pairwise_getD hdisj hp ha hpa x (hpe ▸ hxy) hxA
    · exact pairwise_getD hdisj hp hb hpb x (hpe ▸ hxy) hxB

theorem aggStep_inv {α : Type} [DecidableEq α] {upd : UpdateRule} {ids : ℕ → α}
    (hupd : TopPreserving upd) {s : AggState} (h : AggInv ids s) :
    AggInv ids (aggStep upd s) := by
  by_cases h2 : 2 ≤ s.clusters.length
  · rw [aggStep, if_pos h2]
    obtain ⟨hmem, heq, hmin⟩ := pickMin_spec s.dist s.clusters h2
    obtain ⟨hab, hblt⟩ := mem_upperPairs.mp hmem
    have halt : (pickMin s.dist s.clusters).1.1 < s.clusters.length := lt_trans hab hblt
    have hAmem : s.clusters.getD (pickMin s.dist s.clusters).1.1 [] ∈ s.clusters :=
      getD_mem halt
    have hBmem : s.clusters.getD (pickMin s.dist s.clusters).1.2 [] ∈ s.clusters :=
      getD_mem hblt
    have hne' := push_nonempty hab hblt h.nonempty
    have hdisj' := push_disj hab hblt h.disj
    have hsym' := symm_push upd hab hblt h.nonempty h.disj h.distSymm
    by_cases htop : (pickMin s.dist s.clusters).2 = ⊤
    · have hpos := posTop_of_pickMin_top h2 h.distSymm htop
      refine ⟨?_, Or.inr (sat_push hupd hab hblt h.nonempty h.disj hpos), hne',
        hdisj', hsym', ?_⟩
      · intro p hp hfin
        rcases List.mem_append.mp hp with hp' | hp'
        · exact h.homogMerges p hp' hfin
        · rw [List.mem_singleton.mp hp'] at hfin
          exact absurd htop hfin
      · rw [htop]
        exact topClosed_append_top h.topClosed
    · have hpure : (∀ C ∈ s.clusters, Homog ids C) ∧
          (∀ C ∈ s.clusters, ∀ E ∈ s.clusters, MixedIds ids C E → s.dist C E = ⊤) ∧
          (∀ p ∈ s.merges, p.2 ≠ ⊤) := by
        rcases h.phase with hp | hsat
        · exact hp
        · exfalso
          apply htop
          rw [heq]
          exact hsat _ hAmem _ hBmem
            (pairwise_getD h.disj halt hblt (Nat.ne_of_lt hab))
      obtain ⟨hhom, hcr, hfins⟩ := hpure
      have hABfin : s.dist (s.clusters.getD (pickMin s.dist s.clusters).1.1 [])
          (s.clusters.getD (pickMin s.dist s.clusters).1.2 []) ≠ ⊤ := by
        rw [← heq]
        exact htop
      have hhomAB : Homog ids (s.clusters.getD (pickMin s.dist s.clusters).1.1 []
          ++ s.clusters.getD (pickMin s.dist s.clusters).1.2 []) := by
        have hnm : ¬ MixedIds ids (s.clusters.getD (pickMin s.dist s.clusters).1.1 [])
            (s.clusters.getD (pickMin s.dist s.clusters).1.2 []) :=
          fun hm => hABfin (hcr _ hAmem _ hBmem hm)
        intro x hx y hy
        rcases List.mem_append.mp hx with hx' | hx' <;>
          rcases List.mem_append.mp hy with hy' | hy'
        · exact hhom _ hAmem x hx' y hy'
        · by_contra hxy
          exact hnm ⟨x, hx', y, hy', hxy⟩
        · by_contra hxy
          exact hnm ⟨y, hy', x, hx', fun he => hxy he.symm⟩
        · exact hhom _ hBmem x hx' y hy'
      refine ⟨?_, Or.inl ⟨?_,
        cross_push hupd hab hblt h.nonempty h.disj hcr hhomAB, ?_⟩,
        hne', hdisj', hsym', ?_⟩
      · intro p hp hfin
        rcases List.mem_append.mp hp with hp' | hp'
        · exact h.homogMerges p hp' hfin
        · rw [List.mem_singleton.mp hp']
          exact hhomAB
      · intro C hC
        rcases List.mem_append.mp hC with hC' | hC'
        · exact hhom C (mem_removeTwo_mem hC')
        · rw [List.mem_singleton.mp hC']
          exact hhomAB
      · intro p hp
        rcases List.mem_append.mp hp with hp' | hp'
        · exact hfins p hp'
        · rw [List.mem_singleton.mp hp']
          exact htop
      · apply topClosed_of_all_finite
        intro p hp
        rcases List.mem_append.mp hp with hp' | hp'
        · exact hfins p hp'
        · rw [List.mem_singleton.mp hp']
          exact htop
  · rw [aggStep, if_neg h2]
    exact h

theorem aggIter_inv {α : Type} [DecidableEq α] {upd : UpdateRule} {ids : ℕ → α}
    (hupd : TopPreserving upd) :
    ∀ (k : ℕ) {s : AggState}, AggInv ids s → AggInv ids (aggIter upd k s) := by
  intro k
  induction k with
  | zero => intro s h; exact h
  | succ m ih =>
    intro s h
    exact ih (aggStep_inv hupd h)

theorem aggInit_inv {α : Type} [DecidableEq α] {d : ℕ → ℕ → Dist} {ids : ℕ → α}
    (hd : ∀ i j, d i j = d j i) (hcr : ∀ i j, ids i ≠ ids j → d i j = ⊤)
    (n : ℕ) : AggInv ids (aggInit d n) := by
  simp only [aggInit]
  refine ⟨?_, Or.inl ⟨?_, ?_, ?_⟩, ?_, ?_, ?_, ?_⟩
  · intro p hp
    cases hp
  · intro C hC
    rcases List.mem_map.mp hC with ⟨i, _, hie⟩
    intro x hx y hy
    rw [← hie] at hx hy
    rw [List.mem_singleton.mp hx, List.mem_singleton.mp hy]
  · intro C hC E hE hmix
    rcases List.mem_map.mp hC with ⟨i, _, hie⟩
    rcases List.mem_map.mp hE with ⟨j, _, hje⟩
    obtain ⟨x, hx, y, hy, hxy⟩ := hmix
    rw [← hie] at hx
    rw [← hje] at hy
    rw [List.mem_singleton.mp hx, List.mem_singleton.mp hy] at hxy
    show clusterDist d C E = ⊤
    rw [← hie, ← hje, clusterDist_singleton]
    exact hcr i j hxy
  · intro p hp
    cases hp
  · intro C hC
    rcases List.mem_map.mp hC with ⟨i, _, hie⟩
    rw [← hie]
    exact List.cons_ne_nil i []
  · rw [List.pairwise_map]
    have hnd : List.Pairwise (fun a b => a ≠ b) (List.range n) := List.nodup_range n
    refine hnd.imp ?_
    intro i j hij x hx hy
    rw [List.mem_singleton.mp hx] at hy
    exact hij (List.mem_singleton.mp hy)
  · intro C hC E hE
    exact clusterDist_symm hd C E
  · exact topClosed_nil

theorem aggRun_inv {α : Type} [DecidableEq α] {upd : UpdateRule} {d : ℕ → ℕ → Dist}
    {ids : ℕ → α} (hupd : TopPreserving upd) (hd : ∀ i j, d i j = d j i)
    (hcr : ∀ i j, ids i ≠ ids j → d i j = ⊤) (n : ℕ) :
    AggInv ids (aggRun upd d n) :=
  aggIter_inv hupd (n - 1) (aggInit_inv hd hcr n)

theorem foldl_flat_mem (sel : List ℕ × Dist → Bool) (x : ℕ) :
    ∀ (ms : List (List ℕ × Dist)) (acc : List ℕ), x ∈ acc →
      x ∈ ms.foldl (fun acc m => if sel m = true ∧ x ∈ m.1 then m.1 else acc) acc := by
  intro ms
  induction ms with
  | nil => intro acc h; exact h
  | cons m ms ih =>
    intro acc h
    rw [List.foldl_cons]
    by_cases hc : sel m = true ∧ x ∈ m.1
    · rw [if_pos hc]
      exact ih m.1 hc.2
    · rw [if_neg hc]
      exact ih acc h

theorem flatRep_mem_self (merges : List (List ℕ × Dist)) (sel : List ℕ × Dist → Bool)
    (x : ℕ) : x ∈ flatRep merges sel x :=
  foldl_flat_mem sel x merges [x] (List.mem_singleton.mpr rfl)

theorem foldl_flat_cases (sel : List ℕ × Dist → Bool) (x : ℕ) :
    ∀ (ms : List (List ℕ × Dist)) (acc : List ℕ),
      (ms.foldl (fun acc m => if sel m = true ∧ x ∈ m.1 then m.1 else acc) acc = acc) ∨
      ∃ δ, (ms.foldl (fun acc m => if sel m = true ∧ x ∈ m.1 then m.1 else acc) acc, δ)
          ∈ ms ∧
        sel (ms.foldl (fun acc m => if sel m = true ∧ x ∈ m.1 then m.1 else acc) acc,
          δ) = true := by
  intro ms
  induction ms with
  | nil => intro acc; exact Or.inl rfl
  | cons m ms ih =>
    intro acc
    rw [List.foldl_cons]
    by_cases hc : sel m = true ∧ x ∈ m.1
    · rw [if_pos hc]
      rcases ih m.1 with h | h
      · refine Or.inr ⟨m.2, ?_, ?_⟩
        · rw [h]
          exact List.mem_cons_self m ms
        · rw [h]
          exact hc.1
      · rcases h with ⟨δ, hmem, hδ⟩
        exact Or.inr ⟨δ, List.mem_cons_of_mem m hmem, hδ⟩
    · rw [if_neg hc]
      rcases ih acc with h | h
      · exact Or.inl h
      · rcases h with ⟨δ, hmem, hδ⟩
        exact Or.inr ⟨δ, List.mem_cons_of_mem m hmem, hδ⟩

theorem flatRep_cases (merges : List (List ℕ × Dist)) (sel : List ℕ × Dist → Bool)
    (x : ℕ) :
    flatRep merges sel x = [x] ∨
    ∃ δ, (flatRep merges sel x, δ) ∈ merges ∧ sel (flatRep merges sel x, δ) = true :=
  foldl_flat_cases sel x merges [x]

theorem constrainSquare_symm {α : Type} [DecidableEq α] {d : ℕ → ℕ → Dist}
    (hd : ∀ i j, d i j = d j i) (ids : ℕ → α) :
    ∀ i j, constrainSquare d ids i j = constrainSquare d ids j i := by
  intro i j
  by_cases h : ids i = ids j
  · rw [constrainSquare_same _ _ h, constrainSquare_same _ _ h.symm, hd]
  · rw [constrainSquare_cross _ _ h, constrainSquare_cross _ _ fun h' => h h'.symm]

/-- C1: in the identifier-constrained hierarchical pipeline — mask
cross-identifier distances to infinity, then agglomerate under the
caller-selected linkage method (any infinity-preserving Lance-Williams
rule `upd`) and cut the dendrogram by the caller-selected criterion
(any merge selection `sel`) — two points with different identifiers are
never merged at finite distance: every cross-identifier merge is
recorded at infinite distance; such merges happen only once every
finite-distance merge has been exhausted; under any criterion the two
points share a label only through a selected infinite-distance merge;
and under the `distance` criterion with any finite tolerance their
labels always differ. -/
theorem c1_cross_identifier_never_merged {α : Type} [DecidableEq α]
    (n : ℕ) (d : ℕ → ℕ → Dist) (ids : ℕ → α) (upd : UpdateRule)
    (sel : List ℕ × Dist → Bool) (t : ℚ) (i j : ℕ)
    (hd : ∀ a b, d a b = d b a) (hupd : TopPreserving upd)
    (hi : i < n) (hj : j < n) (hne : ids i ≠ ids j) :
    (∀ p ∈ (aggRun upd (constrainSquare d ids) n).merges,
        ¬ Homog ids p.1 → p.2 = ⊤) ∧
    TopClosed (aggRun upd (constrainSquare d ids) n).merges ∧
    (flatRep (aggRun upd (constrainSquare d ids) n).merges sel i =
        flatRep (aggRun upd (constrainSquare d ids) n).merges sel j →
      ∃ δ, (flatRep (aggRun upd (constrainSquare d ids) n).merges sel j, δ) ∈
          (aggRun upd (constrainSquare d ids) n).merges ∧
        sel (flatRep (aggRun upd (constrainSquare d ids) n).merges sel j, δ) = true ∧
        δ = ⊤) ∧
    (hierByIdLabels n d ids upd (distanceCut t)).getD i 0 ≠
      (hierByIdLabels n d ids upd (distanceCut t)).getD j 0 := by
  have hcr : ∀ a b, ids a ≠ ids b → constrainSquare d ids a b = ⊤ :=
    fun a b h => constrainSquare_cross d ids h
  have hinv := aggRun_inv hupd (constrainSquare_symm hd ids) hcr n
  refine ⟨?_, hinv.topClosed, ?_, ?_⟩
  · intro p hp hnh
    by_contra hfin
    exact hnh (hinv.homogMerges p hp hfin)
  · intro hS
    have hiS : i ∈ flatRep (aggRun upd (constrainSquare d ids) n).merges sel j := by
      rw [← hS]
      exact flatRep_mem_self _ sel i
    have hjS : j ∈ flatRep (aggRun upd (constrainSquare d ids) n).merges sel j :=
      flatRep_mem_self _ sel j
    rcases flatRep_cases (aggRun upd (constrainSquare d ids) n).merges sel j
        with h | h
    · rw [h] at hiS
      exact absurd (congrArg ids (List.mem_singleton.mp hiS)) hne
    · rcases h with ⟨δ, hmem, hsel⟩
      refine ⟨δ, hmem, hsel, ?_⟩
      by_contra hfin
      exact hne (hinv.homogMerges _ hmem hfin i hiS j hjS)
  · have hlen : ((List.range n).map
        (flatRep (aggRun upd (constrainSquare d ids) n).merges
          (distanceCut t))).length = n := by
      rw [List.length_map, List.length_range]
    have hi' : i < ((List.range n).map
        (flatRep (aggRun upd (constrainSquare d ids) n).merges
          (distanceCut t))).length := by
      rw [hlen]; exact hi
    have hj' : j < ((List.range n).map
        (flatRep (aggRun upd (constrainSquare d ids) n).merges
          (distanceCut t))).length := by
      rw [hlen]; exact hj
    show (relabel ((List.range n).map
        (flatRep (aggRun upd (constrainSquare d ids) n).merges
          (distanceCut t)))).getD i 0 ≠ _
    apply relabel_getElem_ne _ hi' hj'
    rw [List.getElem_map, List.getElem_range, List.getElem_map, List.getElem_range]
    intro hS
    have hiS : i ∈ flatRep (aggRun upd (constrainSquare d ids) n).merges
        (distanceCut t) j := by
      rw [← hS]
      exact flatRep_mem_self _ (distanceCut t) i
    have hjS : j ∈ flatRep (aggRun upd (constrainSquare d ids) n).merges
        (distanceCut t) j :=
      flatRep_mem_self _ (distanceCut t) j
    rcases flatRep_cases (aggRun upd (constrainSquare d ids) n).merges
        (distanceCut t) j with h | h
    · rw [h] at hiS
      exact hne (congrArg ids (List.mem_singleton.mp hiS))
    · rcases h with ⟨δ, hmem, hsel⟩
      have hδle : δ ≤ (t : Dist) := by
        simpa [distanceCut] using hsel
      have hfin : δ ≠ ⊤ := by
        intro hδt
        rw [hδt] at hδle
        exact absurd (top_le_iff.mp hδle) (ne_of_lt (WithTop.coe_lt_top t))
      exact hne (hinv.homogMerges _ hmem hfin i hiS j hjS)

/-- C6: labels produced by the hierarchical clustering pipeline — under
any linkage method and any criterion cut — are contiguous integers
starting at 1, assigned in ascending order of first appearance when
scanning original point indices `0..n-1`; equivalently, the
first-appearance sequence of distinct labels is exactly `[1, ..., k]`. -/
theorem c6_labels_first_appearance_contiguous (n : ℕ) (d : ℕ → ℕ → Dist)
    (upd : UpdateRule) (sel : List ℕ × Dist → Bool) :
    firsts (hierLabels n d upd sel) =
      List.range' 1 (firsts (hierLabels n d upd sel)).length := by
  show firsts (relabel ((List.range n).map (flatRep (aggRun upd d n).merges sel))) =
    List.range' 1 (firsts (relabel ((List.range n).map
      (flatRep (aggRun upd d n).merges sel)))).length
  rw [firsts_relabel, List.length_range']

/-- C2: the identifier-constraint transform on a decompressed distance
matrix sets entry `(i, j)` to infinity exactly when the identifiers
differ, leaves same-identifier entries unchanged, and keeps every
diagonal entry at zero. -/
theorem c2_constraint_transform_entries {α : Type} [DecidableEq α]
    (n : ℕ) (v : List Dist) (ids : ℕ → α) (i j : ℕ) :
    (ids i ≠ ids j → constrainSquare (condensedToSquare n v) ids i j = ⊤) ∧
    (ids i = ids j →
      constrainSquare (condensedToSquare n v) ids i j = condensedToSquare n v i j) ∧
    constrainSquare (condensedToSquare n v) ids i i = 0 := by
  refine ⟨fun h => constrainSquare_cross _ _ h,
    fun h => constrainSquare_same _ _ h, ?_⟩
  rw [constrainSquare_same _ _ rfl]
  exact condensedToSquare_diag n v i

theorem c2_witness :
    constrainSquare (condensedToSquare 2 [(3 : Dist)]) (fun i => if i < 1 then (0 : ℤ) else 1) 0 1 = ⊤ ∧
    constrainSquare (condensedToSquare 2 [(3 : Dist)]) (fun i => if i < 1 then (0 : ℤ) else 1) 0 0 = 0 :=
  ⟨(c2_constraint_transform_entries 2 [(3 : Dist)] _ 0 1).1 (by decide),
    (c2_constraint_transform_entries 2 [(3 : Dist)] (fun i => if i < 1 then (0 : ℤ) else 1) 0 0).2.2⟩

/-- C5: decompression of a valid compressed distance vector to symmetric
square form and recompression back are exact mutual inverses:
recompressing a decompressed vector recovers the vector, and
decompressing the recompression of any symmetric zero-diagonal square
matrix recovers the matrix on all in-range entries. -/
theorem c5_squareform_roundtrip (n : ℕ) :
    (∀ v : List Dist, v.length = n * (n - 1) / 2 →
      squareToCondensed n (condensedToSquare n v) = v) ∧
    (∀ m : ℕ → ℕ → Dist, (∀ i j, i < n → j < n → m i j = m j i) →
      (∀ i, i < n → m i i = 0) →
      ∀ i j, i < n → j < n →
        condensedToSquare n (squareToCondensed n m) i j = m i j) :=
  ⟨fun v hv => squareToCondensed_condensedToSquare n v hv,
    fun m hs hd => condensedToSquare_squareToCondensed n m hs hd⟩

theorem c5_witness :
    squareToCondensed 3 (condensedToSquare 3 [(1 : Dist), 2, 3]) = [(1 : Dist), 2, 3] ∧
    condensedToSquare 3 (squareToCondensed 3 fun _ _ => (0 : Dist)) 0 1 = 0 :=
  ⟨(c5_squareform_roundtrip 3).1 [(1 : Dist), 2, 3] (by decide),
    (c5_squareform_roundtrip 3).2 (fun _ _ => (0 : Dist))
      (fun _ _ _ _ => rfl) (fun _ _ => rfl) 0 1 (by decide) (by decide)⟩

theorem c1_witness :
    ((fun i => if i < 2 then (0 : ℤ) else 1) 0
        ≠ (fun i => if i < 2 then (0 : ℤ) else 1) 2) ∧
    (hierByIdLabels 3 (fun _ _ => (1 : Dist)) (fun i => if i < 2 then (0 : ℤ) else 1)
        singleLinkUpdate (distanceCut 5)).getD 0 0 ≠
      (hierByIdLabels 3 (fun _ _ => (1 : Dist)) (fun i => if i < 2 then (0 : ℤ) else 1)
        singleLinkUpdate (distanceCut 5)).getD 2 0 :=
  ⟨by decide,
    (c1_cross_identifier_never_merged 3 (fun _ _ => (1 : Dist))
      (fun i => if i < 2 then (0 : ℤ) else 1) singleLinkUpdate (distanceCut 5) 5 0 2
      (fun _ _ => rfl) singleLinkUpdate_topPreserving
      (by decide) (by decide) (by decide)).2.2.2⟩

theorem foldl_min_le_init : ∀ (l : List ℚ) (a : ℚ), l.foldl min a ≤ a := by
  intro l
  induction l with
  | nil => intro a; exact le_refl a
  | cons b t ih =>
    intro a
    rw [List.foldl_cons]
    exact le_trans (ih (min a b)) (min_le_left a b)

theorem foldl_min_le_mem : ∀ (l : List ℚ) (a : ℚ) {x : ℚ}, x ∈ l → l.foldl min a ≤ x := by
  intro l
  induction l with
  | nil => intro a x hx; cases hx
  | cons b t ih =>
    intro a x hx
    rw [List.foldl_cons]
    rcases List.mem_cons.mp hx with h | h
    · subst h
      exact le_trans (foldl_min_le_init t (min a x)) (min_le_right a x)
    · exact ih (min a b) h

theorem foldl_min_mem : ∀ (l : List ℚ) (a : ℚ), l.foldl min a = a ∨ l.foldl min a ∈ l := by
  intro l
  induction l with
  | nil => intro a; exact Or.inl rfl
  | cons b t ih =>
    intro a
    rw [List.foldl_cons]
    rcases ih (min a b) with h | h
    · rcases le_total a b with hab | hab
      · rw [h, min_eq_left hab]; exact Or.inl rfl
      · rw [h, min_eq_right hab]; exact Or.inr (List.mem_cons_self b t)
    · exact Or.inr (List.mem_cons_of_mem b h)

theorem qmin_le_mem {l : List ℚ} {x : ℚ} (hx : x ∈ l) : qmin l ≤ x := by
  cases l with
  | nil => cases hx
  | cons a t =>
    rw [qmin]
    rcases List.mem_cons.mp hx with h | h
    · subst h; exact foldl_min_le_init t x
    · exact foldl_min_le_mem t a h

theorem qmin_mem {l : List ℚ} (hl : l ≠ []) : qmin l ∈ l := by
  cases l with
  | nil => exact absurd rfl hl
  | cons a t =>
    rw [qmin]
    rcases foldl_min_mem t a with h | h
    · rw [h]; exact List.mem_cons_self a t
    · exact List.mem_cons_of_mem a h

theorem sqDist_nonneg (p q : Pt) : 0 ≤ sqDist p q :=
  add_nonneg (sq_nonneg _) (sq_nonneg _)

theorem sqDist_self (p : Pt) : sqDist p p = 0 := by
  simp [sqDist]

theorem sqDist_eq_zero {p q : Pt} (h : sqDist p q = 0) : p = q := by
  rw [sqDist] at h
  have h1 : (p.1 - q.1) ^ 2 = 0 ∧ (p.2 - q.2) ^ 2 = 0 :=
    (add_eq_zero_iff_of_nonneg (sq_nonneg _) (sq_nonneg _)).mp h
  have e1 : p.1 = q.1 := sub_eq_zero.mp ((pow_eq_zero_iff two_ne_zero).mp h1.1)
  have e2 : p.2 = q.2 := sub_eq_zero.mp ((pow_eq_zero_iff two_ne_zero).mp h1.2)
  exact Prod.ext e1 e2

theorem foldl_mem_of_step (step : ℕ → ℕ → ℕ) (hstep : ∀ b m, step b m = b ∨ step b m = m) :
    ∀ (l : List ℕ) (b : ℕ), l.foldl step b = b ∨ l.foldl step b ∈ l := by
  intro l
  induction l with
  | nil => intro b; exact Or.inl rfl
  | cons a t ih =>
    intro b
    rw [List.foldl_cons]
    rcases ih (step b a) with h | h
    · rcases hstep b a with h' | h'
      · rw [h, h']; exact Or.inl rfl
      · rw [h, h']; exact Or.inr (List.mem_cons_self a t)
    · exact Or.inr (List.mem_cons_of_mem a h)

theorem foldl_argmax_ge (g : ℕ → ℚ) :
    ∀ (l : List ℕ) (b : ℕ),
      g b ≤ g (l.foldl (fun best m => if g best < g m then m else best) b) ∧
      ∀ m ∈ l, g m ≤ g (l.foldl (fun best m => if g best < g m then m else best) b) := by
  intro l
  induction l with
  | nil =>
    intro b
    exact ⟨le_refl _, fun m hm => absurd hm (List.not_mem_nil m)⟩
  | cons a t ih =>
    intro b
    rw [List.foldl_cons]
    have hb' : g b ≤ g (if g b < g a then a else b) := by
      by_cases h : g b < g a
      · rw [if_pos h]; exact le_of_lt h
      · rw [if_neg h]
    have ha' : g a ≤ g (if g b < g a then a else b) := by
      by_cases h : g b < g a
      · rw [if_pos h]
      · rw [if_neg h]; exact not_lt.mp h
    rcases ih (if g b < g a then a else b) with ⟨h1, h2⟩
    refine ⟨le_trans hb' h1, ?_⟩
    intro m hm
    rcases List.mem_cons.mp hm with h | h
    · subst h; exact le_trans ha' h1
    · exact h2 m h

theorem nearestIdx_lt {cents : List Pt} (hc : 0 < cents.length) (p : Pt) :
    nearestIdx cents p < cents.length := by
  rw [nearestIdx]
  have := foldl_mem_of_step
    (fun best j =>
      if sqDist p (cents.getD j (0, 0)) < sqDist p (cents.getD best (0, 0)) then j else best)
    (fun b m => by
      dsimp only
      by_cases h : sqDist p (cents.getD m (0, 0)) < sqDist p (cents.getD b (0, 0))
      · rw [if_pos h]; exact Or.inr rfl
      · rw [if_neg h]; exact Or.inl rfl)
    (List.range cents.length) 0
  rcases this with h | h
  · rw [h]; exact hc
  · exact List.mem_range.mp h

theorem farthestIdx_lt {pts : List Pt} (hn : 0 < pts.length)
    (cents : List Pt) (surv : List ℕ) :
    farthestIdx pts cents surv < pts.length := by
  rw [farthestIdx]
  have := foldl_mem_of_step
    (fun best m =>
      if centScore cents surv (pts.getD best (0, 0))
          < centScore cents surv (pts.getD m (0, 0)) then m else best)
    (fun b m => by
      dsimp only
      by_cases h : centScore cents surv (pts.getD b (0, 0))
          < centScore cents surv (pts.getD m (0, 0))
      · rw [if_pos h]; exact Or.inr rfl
      · rw [if_neg h]; exact Or.inl rfl)
    (List.range pts.length) 0
  rcases this with h | h
  · rw [h]; exact hn
  · exact List.mem_range.mp h

theorem farthestIdx_max (pts : List Pt) (cents : List Pt) (surv : List ℕ)
    {m : ℕ} (hm : m < pts.length) :
    centScore cents surv (pts.getD m (0, 0)) ≤
      centScore cents surv (pts.getD (farthestIdx pts cents surv) (0, 0)) := by
  rw [farthestIdx]
  exact (foldl_argmax_ge (fun m => centScore cents surv (pts.getD m (0, 0)))
    (List.range pts.length) 0).2 m (List.mem_range.mpr hm)

theorem mem_clusterPositions {n : ℕ} {labels : List ℕ} {c m : ℕ} :
    m ∈ clusterPositions n labels c ↔ m < n ∧ labels.getD m 0 = c := by
  simp [clusterPositions, List.mem_filter, List.mem_range]

theorem clusterPositions_nodup (n : ℕ) (labels : List ℕ) (c : ℕ) :
    (clusterPositions n labels c).Nodup :=
  List.Nodup.filter _ (List.nodup_range n)

theorem mem_survivors {n k : ℕ} {labels : List ℕ} {c : ℕ} :
    c ∈ survivors n k labels ↔ c < k ∧ clusterPositions n labels c ≠ [] := by
  simp [survivors, List.mem_filter, List.mem_range]

theorem getD_set_of_lt (labels : List ℕ) {i : ℕ} (j : ℕ) {m : ℕ}
    (hm : m < labels.length) :
    (labels.set i j).getD m 0 = if i = m then j else labels.getD m 0 := by
  have hm' : m < (labels.set i j).length := by rw [List.length_set]; exact hm
  rw [List.getD_eq_getElem _ 0 hm', List.getD_eq_getElem _ 0 hm, List.getElem_set]

theorem recompute_length (pts : List Pt) (k : ℕ) (labels : List ℕ) (cents : List Pt) :
    (recompute pts k labels cents).length = k := by
  rw [recompute, List.length_map, List.length_range]

theorem recompute_getD (pts : List Pt) (k : ℕ) (labels : List ℕ) (cents : List Pt)
    {c : ℕ} (hc : c < k) :
    (recompute pts k labels cents).getD c (0, 0) =
      if clusterPositions pts.length labels c = [] then cents.getD c (0, 0)
      else meanPts (membersOf pts labels c) := by
  have hc' : c < (recompute pts k labels cents).length := by
    rw [recompute_length]; exact hc
  rw [List.getD_eq_getElem _ _ hc']
  simp only [recompute, List.getElem_map, List.getElem_range]

theorem recompute_coherent (pts : List Pt) (k : ℕ) (labels : List ℕ) (cents : List Pt) :
    Coherent pts k labels (recompute pts k labels cents) := by
  intro c hc hne
  rw [recompute_getD pts k labels cents hc, if_neg hne]

theorem meanPts_singleton (p : Pt) : meanPts [p] = p := by
  simp [meanPts]

theorem centScore_le (cents : List Pt) {surv : List ℕ} {c : ℕ} (hc : c ∈ surv) (p : Pt) :
    centScore cents surv p ≤ sqDist p (cents.getD c (0, 0)) :=
  qmin_le_mem (List.mem_map.mpr ⟨c, hc, rfl⟩)

theorem centScore_nonneg {cents : List Pt} {surv : List ℕ} (hs : surv ≠ []) (p : Pt) :
    0 ≤ centScore cents surv p := by
  have hmap : (surv.map fun c => sqDist p (cents.getD c (0, 0))) ≠ [] := by
    intro h
    exact hs (List.map_eq_nil_iff.mp h)
  have := qmin_mem hmap
  rcases List.mem_map.mp this with ⟨c, _, he⟩
  rw [centScore, ← he]
  exact sqDist_nonneg p _

theorem centScore_zero_exists {cents : List Pt} {surv : List ℕ} (hs : surv ≠ [])
    {p : Pt} (h : centScore cents surv p = 0) :
    ∃ c ∈ surv, p = cents.getD c (0, 0) := by
  have hmap : (surv.map fun c => sqDist p (cents.getD c (0, 0))) ≠ [] := by
    intro h'
    exact hs (List.map_eq_nil_iff.mp h')
  have hm := qmin_mem hmap
  rcases List.mem_map.mp hm with ⟨c, hc, he⟩
  refine ⟨c, hc, ?_⟩
  apply sqDist_eq_zero
  rw [he]
  exact h

theorem filter_length_mono {p q : ℕ → Bool} :
    ∀ {l : List ℕ}, (∀ x ∈ l, q x = true → p x = true) →
      (l.filter q).length ≤ (l.filter p).length := by
  intro l
  induction l with
  | nil => intro _; exact le_refl 0
  | cons a t ih =>
    intro h
    have ht : ∀ x ∈ t, q x = true → p x = true :=
      fun x hx => h x (List.mem_cons_of_mem a hx)
    by_cases hqa : q a = true
    · have hpa : p a = true := h a (List.mem_cons_self a t) hqa
      rw [List.filter_cons, if_pos hqa, List.filter_cons, if_pos hpa]
      simpa using ih ht
    · rw [List.filter_cons, if_neg hqa, List.filter_cons]
      by_cases hpa : p a = true
      · rw [if_pos hpa]
        exact le_trans (ih ht) (by simp)
      · rw [if_neg hpa]
        exact ih ht

theorem filter_length_lt {p q : ℕ → Bool} :
    ∀ {l : List ℕ}, (∀ x ∈ l, q x = true → p x = true) →
      ∀ {x0 : ℕ}, x0 ∈ l → p x0 = true → q x0 = false →
      (l.filter q).length < (l.filter p).length := by
  intro l
  induction l with
  | nil =>
    intro _ x0 hx0
    cases hx0
  | cons a t ih =>
    intro h x0 hx0 hp hq
    have ht : ∀ x ∈ t, q x = true → p x = true :=
      fun x hx => h x (List.mem_cons_of_mem a hx)
    rcases List.mem_cons.mp hx0 with he | hmem
    · subst he
      rw [List.filter_cons, if_neg (by simp [hq]), List.filter_cons, if_pos hp]
      exact Nat.lt_succ_of_le (filter_length_mono ht)
    · by_cases hqa : q a = true
      · have hpa : p a = true := h a (List.mem_cons_self a t) hqa
        rw [List.filter_cons, if_pos hqa, List.filter_cons, if_pos hpa]
        simpa using ih ht hmem hp hq
      · rw [List.filter_cons, if_neg hqa, List.filter_cons]
        by_cases hpa : p a = true
        · rw [if_pos hpa]
          exact lt_trans (ih ht hmem hp hq) (by simp)
        · rw [if_neg hpa]
          exact ih ht hmem hp hq

theorem nodup_length_le_of_subset {α : Type} {l l' : List α} (hnd : l.Nodup)
    (hsub : l ⊆ l') : l.length ≤ l'.length :=
  List.Subperm.length_le (List.Nodup.subperm hnd hsub)

theorem firsts_length_le {α : Type} [DecidableEq α] (l : List α) :
    (firsts l).length ≤ l.length :=
  nodup_length_le_of_subset (nodup_firsts l) fun _ hx => mem_firsts.mp hx

theorem singleton_score_zero {pts : List Pt} {k : ℕ} {labels : List ℕ} {cents : List Pt}
    (hcoh : Coherent pts k labels cents) {c m : ℕ} (hc : c < k)
    (hpos : clusterPositions pts.length labels c = [m]) :
    centScore cents (survivors pts.length k labels) (pts.getD m (0, 0)) = 0 := by
  have hne : clusterPositions pts.length labels c ≠ [] := by
    rw [hpos]; exact List.cons_ne_nil m []
  have hcs : c ∈ survivors pts.length k labels := mem_survivors.mpr ⟨hc, hne⟩
  have hsne : survivors pts.length k labels ≠ [] := List.ne_nil_of_mem hcs
  have hmem : membersOf pts labels c = [pts.getD m (0, 0)] := by
    rw [membersOf, hpos]
    rfl
  have hcent : cents.getD c (0, 0) = pts.getD m (0, 0) := by
    rw [hcoh c hc hne, hmem, meanPts_singleton]
  have hle : centScore cents (survivors pts.length k labels) (pts.getD m (0, 0)) ≤ 0 := by
    have := centScore_le cents hcs (pts.getD m (0, 0))
    rw [hcent, sqDist_self] at this
    exact this
  exact le_antisymm hle (centScore_nonneg hsne _)

theorem maxscore_pos {pts : List Pt} {k : ℕ} {labels : List ℕ} (cents : List Pt)
    (hlen : labels.length = pts.length) (hwf : ∀ x ∈ labels, x < k)
    (hdist : k ≤ (firsts pts).length)
    {j0 : ℕ} (hj0 : j0 < k) (hempty : clusterPositions pts.length labels j0 = [])
    (hn : 0 < pts.length) :
    0 < centScore cents (survivors pts.length k labels)
        (pts.getD (farthestIdx pts cents (survivors pts.length k labels)) (0, 0)) := by
  have hsne : survivors pts.length k labels ≠ [] := by
    have h0len : 0 < labels.length := by rw [hlen]; exact hn
    have h0mem : labels.getD 0 0 ∈ labels := by
      rw [List.getD_eq_getElem labels 0 h0len]
      exact List.getElem_mem h0len
    have h0lab : labels.getD 0 0 < k := hwf _ h0mem
    have h0pos : (0 : ℕ) ∈ clusterPositions pts.length labels (labels.getD 0 0) :=
      mem_clusterPositions.mpr ⟨hn, rfl⟩
    exact List.ne_nil_of_mem
      (mem_survivors.mpr ⟨h0lab, List.ne_nil_of_mem h0pos⟩)
  by_contra hc
  push_neg at hc
  have hzero : ∀ m, m < pts.length →
      centScore cents (survivors pts.length k labels) (pts.getD m (0, 0)) = 0 := by
    intro m hm
    exact le_antisymm (le_trans (farthestIdx_max pts cents _ hm) hc)
      (centScore_nonneg hsne _)
  have hsub : firsts pts ⊆
      (survivors pts.length k labels).map fun c => cents.getD c (0, 0) := by
    intro p hp
    rcases List.mem_iff_getElem.mp (mem_firsts.mp hp) with ⟨m, hm, he⟩
    have hpd : pts.getD m (0, 0) = p := by
      rw [List.getD_eq_getElem _ _ hm]; exact he
    rcases centScore_zero_exists hsne (hzero m hm) with ⟨c, hcs, hpe⟩
    exact List.mem_map.mpr ⟨c, hcs, by rw [← hpe, hpd]⟩
  have hlen1 : (firsts pts).length ≤ (survivors pts.length k labels).length := by
    have := nodup_length_le_of_subset (nodup_firsts pts) hsub
    rw [List.length_map] at this
    exact this
  have hlen2 : (survivors pts.length k labels).length < k := by
    have := filter_length_lt
      (p := fun _ => true)
      (q := fun c => decide (clusterPositions pts.length labels c ≠ []))
      (l := List.range k)
      (fun x _ _ => rfl) (List.mem_range.mpr hj0) rfl (by simp [hempty])
    rw [List.filter_true, List.length_range] at this
    exact this
  omega

theorem exists_ne_of_two_le_length_nodup {l : List ℕ} (hnd : l.Nodup)
    (hl : 2 ≤ l.length) (i : ℕ) : ∃ m ∈ l, m ≠ i := by
  match l, hnd, hl with
  | a :: b :: t, hnd, _ =>
    have hab : a ≠ b := by
      intro h
      exact (List.nodup_cons.mp hnd).1 (h ▸ List.mem_cons_self b t)
    by_cases ha : a = i
    · refine ⟨b, List.mem_cons_of_mem a (List.mem_cons_self b t), ?_⟩
      intro hb
      exact hab (ha.trans hb.symm)
    · exact ⟨a, List.mem_cons_self a (b :: t), ha⟩

theorem clusterPositions_set_other {n : ℕ} {labels : List ℕ} (hlen : labels.length = n)
    {i j c : ℕ} (hci : labels.getD i 0 ≠ c) (hcj : c ≠ j) :
    clusterPositions n (labels.set i j) c = clusterPositions n labels c := by
  apply List.filter_congr
  intro m hm
  have hm' : m < n := List.mem_range.mp hm
  rw [getD_set_of_lt labels j (by omega : m < labels.length)]
  by_cases he : i = m
  · rw [if_pos he]
    exact decide_eq_decide.mpr (iff_of_false (fun h => hcj h.symm) (he ▸ hci))
  · rw [if_neg he]

theorem mem_clusterPositions_set_target {n : ℕ} {labels : List ℕ}
    (hlen : labels.length = n) {i j : ℕ} (hi : i < n) :
    i ∈ clusterPositions n (labels.set i j) j :=
  mem_clusterPositions.mpr
    ⟨hi, by rw [getD_set_of_lt labels j (by omega : i < labels.length), if_pos rfl]⟩

theorem mem_clusterPositions_set_of_ne {n : ℕ} {labels : List ℕ} {i j c m : ℕ}
    (hmi : m ≠ i) (hm : m ∈ clusterPositions n labels c) :
    m ∈ clusterPositions n (labels.set i j) c := by
  rcases mem_clusterPositions.mp hm with ⟨hmn, hml⟩
  refine mem_clusterPositions.mpr ⟨hmn, ?_⟩
  by_cases hmlen : m < labels.length
  · rw [getD_set_of_lt labels j hmlen, if_neg (fun h => hmi h.symm)]
    exact hml
  · have hsetlen : (labels.set i j).length = labels.length := by
      rw [List.length_set]
    rw [List.getD_eq_default _ _ (by omega), ← hml,
      List.getD_eq_default _ _ (by omega)]

theorem fixOne_spec {pts : List Pt} {k : ℕ} {labels : List ℕ} {cents : List Pt}
    (hlen : labels.length = pts.length) (hwf : ∀ x ∈ labels, x < k)
    (hcoh : Coherent pts k labels cents) (hdist : k ≤ (firsts pts).length)
    {j : ℕ} (hj : emptyCluster pts.length k labels = some j) :
    (fixOne pts k labels cents j).length = pts.length ∧
    (∀ x ∈ fixOne pts k labels cents j, x < k) ∧
    emptyCount pts.length k (fixOne pts k labels cents j) <
      emptyCount pts.length k labels := by
  rw [emptyCluster] at hj
  have hjk : j < k := List.mem_range.mp (List.mem_of_find?_eq_some hj)
  have hjp := List.find?_some hj
  have hjem : clusterPositions pts.length labels j = [] := by
    simpa using hjp
  have hn : 0 < pts.length := by
    have := firsts_length_le pts
    omega
  have hi : farthestIdx pts cents (survivors pts.length k labels) < pts.length :=
    farthestIdx_lt hn cents _
  have hscore := maxscore_pos cents hlen hwf hdist hjk hjem hn
  have hcimem : labels.getD (farthestIdx pts cents (survivors pts.length k labels)) 0
      ∈ labels := by
    rw [List.getD_eq_getElem labels 0 (by omega)]
    exact List.getElem_mem _
  have hcik : labels.getD (farthestIdx pts cents (survivors pts.length k labels)) 0 < k :=
    hwf _ hcimem
  have hipos : farthestIdx pts cents (survivors pts.length k labels) ∈
      clusterPositions pts.length labels
        (labels.getD (farthestIdx pts cents (survivors pts.length k labels)) 0) :=
    mem_clusterPositions.mpr ⟨hi, rfl⟩
  have hcij : labels.getD (farthestIdx pts cents (survivors pts.length k labels)) 0 ≠ j := by
    intro h
    rw [h, hjem] at hipos
    cases hipos
  have hsize2 : 2 ≤ (clusterPositions pts.length labels
      (labels.getD (farthestIdx pts cents (survivors pts.length k labels)) 0)).length := by
    by_contra hs
    push_neg at hs
    have h1 : 0 < (clusterPositions pts.length labels
        (labels.getD (farthestIdx pts cents (survivors pts.length k labels)) 0)).length :=
      List.length_pos.mpr (List.ne_nil_of_mem hipos)
    have hone : (clusterPositions pts.length labels
        (labels.getD (farthestIdx pts cents (survivors pts.length k labels)) 0)).length = 1 := by
      omega
    rcases List.length_eq_one.mp hone with ⟨a, ha⟩
    have hai : a = farthestIdx pts cents (survivors pts.length k labels) := by
      rw [ha] at hipos
      exact (List.mem_singleton.mp hipos).symm
    rw [hai] at ha
    have := singleton_score_zero hcoh hcik ha
    rw [this] at hscore
    exact lt_irrefl 0 hscore
  refine ⟨?_, ?_, ?_⟩
  · rw [fixOne, List.length_set]
    exact hlen
  · intro x hx
    rcases List.mem_or_eq_of_mem_set hx with h | h
    · exact hwf x h
    · omega
  · apply filter_length_lt
    · intro c _ hq
      have hq' : clusterPositions pts.length (fixOne pts k labels cents j) c = [] :=
        of_decide_eq_true hq
      by_cases hcj : c = j
      · exfalso
        have := mem_clusterPositions_set_target (j := j) hlen hi
        rw [hcj, fixOne] at hq'
        rw [hq'] at this
        cases this
      · by_cases hcci : c =
            labels.getD (farthestIdx pts cents (survivors pts.length k labels)) 0
        · exfalso
          obtain ⟨m, hm, hmi⟩ := exists_ne_of_two_le_length_nodup
            (clusterPositions_nodup _ _ _) hsize2
            (farthestIdx pts cents (survivors pts.length k labels))
          have := mem_clusterPositions_set_of_ne (j := j) hmi (hcci ▸ hm)
          rw [fixOne] at hq'
          rw [hq'] at this
          cases this
        · rw [fixOne, clusterPositions_set_other hlen
            (fun h => hcci h.symm) hcj] at hq'
          simp [hq']
    · exact List.mem_range.mpr hjk
    · simp [hjem]
    · apply decide_eq_false
      intro h
      have := mem_clusterPositions_set_target (j := j) hlen hi
      rw [fixOne] at h
      rw [h] at this
      cases this

theorem fixAll_spec (pts : List Pt) (k : ℕ) (hdist : k ≤ (firsts pts).length) :
    ∀ (fuel : ℕ) (labels : List ℕ) (cents : List Pt),
      labels.length = pts.length → (∀ x ∈ labels, x < k) →
      Coherent pts k labels cents → cents.length = k →
      emptyCount pts.length k labels ≤ fuel →
      ((fixAll pts k fuel labels cents).1.length = pts.length ∧
       (∀ x ∈ (fixAll pts k fuel labels cents).1, x < k) ∧
       (∀ c, c < k →
         clusterPositions pts.length (fixAll pts k fuel labels cents).1 c ≠ []) ∧
       (fixAll pts k fuel labels cents).2.length = k) := by
  intro fuel
  induction fuel with
  | zero =>
    intro labels cents hlen hwf _ hclen hcount
    rw [fixAll]
    refine ⟨hlen, hwf, ?_, hclen⟩
    intro c hck hpos
    have hmem : c ∈ (List.range k).filter
        fun c => decide (clusterPositions pts.length labels c = []) :=
      List.mem_filter.mpr ⟨List.mem_range.mpr hck, by simp [hpos]⟩
    have : 0 < emptyCount pts.length k labels :=
      List.length_pos.mpr (List.ne_nil_of_mem hmem)
    omega
  | succ fuel ih =>
    intro labels cents hlen hwf hcoh hclen hcount
    rw [fixAll]
    cases hfind : emptyCluster pts.length k labels with
    | none =>
      refine ⟨hlen, hwf, ?_, hclen⟩
      intro c hck hpos
      have := List.find?_eq_none.mp hfind c (List.mem_range.mpr hck)
      simp [hpos] at this
    | some j =>
      obtain ⟨hl', hwf', hcnt'⟩ := fixOne_spec hlen hwf hcoh hdist hfind
      exact ih (fixOne pts k labels cents j)
        (recompute pts k (fixOne pts k labels cents j) cents)
        hl' hwf' (recompute_coherent _ _ _ _) (recompute_length _ _ _ _)
        (by omega)

theorem assignLabels_length (pts cents : List Pt) :
    (assignLabels pts cents).length = pts.length := by
  rw [assignLabels, List.length_map]

theorem assignLabels_wf {pts cents : List Pt} {k : ℕ} (hk : cents.length = k)
    (h0 : 0 < k) : ∀ x ∈ assignLabels pts cents, x < k := by
  intro x hx
  rcases List.mem_map.mp hx with ⟨p, _, he⟩
  rw [← he, ← hk]
  exact nearestIdx_lt (by omega) p

theorem kmeansStep_spec (pts : List Pt) (k : ℕ) (cents : List Pt)
    (hk2 : 2 ≤ k) (hdist : k ≤ (firsts pts).length) (hclen : cents.length = k) :
    (kmeansStep pts k cents).1.length = pts.length ∧
    (∀ x ∈ (kmeansStep pts k cents).1, x < k) ∧
    (∀ c, c < k →
      clusterPositions pts.length (kmeansStep pts k cents).1 c ≠ []) ∧
    (kmeansStep pts k cents).2.length = k := by
  rw [kmeansStep]
  exact fixAll_spec pts k hdist k (assignLabels pts cents)
    (recompute pts k (assignLabels pts cents) cents)
    (assignLabels_length pts cents)
    (assignLabels_wf hclen (by omega))
    (recompute_coherent _ _ _ _)
    (recompute_length _ _ _ _)
    (le_trans (List.length_filter_le _ _) (by rw [List.length_range]))

theorem kmeansRun_cents_length (pts : List Pt) (k : ℕ) (cents0 : List Pt)
    (hk2 : 2 ≤ k) (hdist : k ≤ (firsts pts).length) (hc : cents0.length = k) :
    ∀ T, (kmeansRun pts k cents0 T).2.length = k := by
  intro T
  induction T with
  | zero => exact hc
  | succ m ih =>
    rw [kmeansRun]
    exact (kmeansStep_spec pts k _ hk2 hdist ih).2.2.2

theorem label_count_eq_k {labels : List ℕ} {k n : ℕ}
    (hwf : ∀ x ∈ labels, x < k) (hlen : labels.length = n)
    (hfull : ∀ c, c < k → clusterPositions n labels c ≠ []) :
    (firsts labels).length = k := by
  have h1 : (firsts labels).length ≤ k := by
    have := nodup_length_le_of_subset (nodup_firsts labels)
      (fun x hx => List.mem_range.mpr (hwf x (mem_firsts.mp hx)))
    rw [List.length_range] at this
    exact this
  have h2 : k ≤ (firsts labels).length := by
    have hsub : List.range k ⊆ firsts labels := by
      intro c hc
      have hck : c < k := List.mem_range.mp hc
      have hne := hfull c hck
      rcases List.exists_mem_of_ne_nil _ hne with ⟨m, hm⟩
      rcases mem_clusterPositions.mp hm with ⟨hmn, hml⟩
      apply mem_firsts.mpr
      rw [← hml, List.getD_eq_getElem labels 0 (by omega)]
      exact List.getElem_mem _
    have := nodup_length_le_of_subset (List.nodup_range k) hsub
    rw [List.length_range] at this
    exact this
  omega

/-- C3: every k-means run of at least one iteration ends with exactly
`k` distinct labels: a centroid that ends an iteration with zero
assigned points is re-seeded from the point farthest from its nearest
surviving centroid, and the re-seeding loop provably eliminates every
empty cluster whenever the input has at least `k` distinct point
positions. -/
theorem c3_kmeans_distinct_label_count (pts : List Pt) (k : ℕ) (cents0 : List Pt)
    (T : ℕ) (hk : 2 ≤ k) (hdist : k ≤ (firsts pts).length)
    (hc : cents0.length = k) (hT : 1 ≤ T) :
    (firsts (kmeansRun pts k cents0 T).1).length = k := by
  cases T with
  | zero => omega
  | succ m =>
    rw [kmeansRun]
    obtain ⟨hl, hwf, hfull, _⟩ := kmeansStep_spec pts k _ hk hdist
      (kmeansRun_cents_length pts k cents0 hk hdist hc m)
    exact label_count_eq_k hwf hl hfull

theorem c3_witness :
    2 ≤ 2 ∧
    2 ≤ (firsts [((0 : ℚ), (0 : ℚ)), (0, 1), (10, 0), (10, 1)]).length ∧
    ([((0 : ℚ), (0 : ℚ)), (10, 0)] : List Pt).length = 2 ∧
    (firsts (kmeansRun [((0 : ℚ), (0 : ℚ)), (0, 1), (10, 0), (10, 1)] 2
      [((0 : ℚ), (0 : ℚ)), (10, 0)] 1).1).length = 2 :=
  ⟨le_refl 2, by decide, by decide,
    c3_kmeans_distinct_label_count
      [((0 : ℚ), (0 : ℚ)), (0, 1), (10, 0), (10, 1)] 2
      [((0 : ℚ), (0 : ℚ)), (10, 0)] 1
      (le_refl 2) (by decide) (by decide) (le_refl 1)⟩

/-- C4: the k-means operation fails with `InvalidInputError`, before any
labelling is produced, whenever `k < 2`, `k > n` or `n < 2`. -/
theorem c4_kmeans_invalid_input (pts : List Pt) (k : ℕ) (cents0 : List Pt)
    (iters : ℕ) (h : k < 2 ∨ pts.length < k ∨ pts.length < 2) :
    kmeansClusterer pts k cents0 iters = .error .invalidInput := by
  rw [kmeansClusterer, if_pos h]

theorem c4_witness :
    ((5 : ℕ) < 2 ∨ ([((0 : ℚ), (0 : ℚ)), (0, 1), (0, 2)] : List Pt).length < 5 ∨
      ([((0 : ℚ), (0 : ℚ)), (0, 1), (0, 2)] : List Pt).length < 2) ∧
    kmeansClusterer [((0 : ℚ), (0 : ℚ)), (0, 1), (0, 2)] 5 [] 1 =
      .error .invalidInput :=
  ⟨by decide,
    c4_kmeans_invalid_input [((0 : ℚ), (0 : ℚ)), (0, 1), (0, 2)] 5 [] 1 (by decide)⟩

theorem featureWrites_length (fids : List ℤ) (y : List ℕ) :
    (featureWrites fids y).length = fids.length := by
  rw [featureWrites, List.length_map]

theorem map_lookup_zip :
    ∀ {fids : List ℤ} {y : List ℕ}, fids.Nodup → fids.length = y.length →
      (fids.map fun fid => (((fids.zip y).lookup fid).getD 0)) = y := by
  intro fids
  induction fids with
  | nil =>
    intro y _ hlen
    cases y with
    | nil => rfl
    | cons b bs => simp at hlen
  | cons f fs ih =>
    intro y hnd hlen
    cases y with
    | nil => simp at hlen
    | cons b bs =>
      rcases List.nodup_cons.mp hnd with ⟨hf, hfs⟩
      rw [List.zip_cons_cons, List.map_cons]
      congr 1
      · rw [List.lookup_cons]
        simp
      · have hstep : (fs.map fun fid => ((((f, b) :: fs.zip bs).lookup fid).getD 0))
            = fs.map fun fid => (((fs.zip bs).lookup fid).getD 0) := by
          apply List.map_congr_left
          intro fid hfid
          have hne : fid ≠ f := fun h => hf (h ▸ hfid)
          have hbeq : (fid == f) = false := by simp [hne]
          rw [List.lookup_cons, hbeq]
        rw [hstep]
        exact ih hfs (by simpa using hlen)

theorem map_snd_featureWrites {fids : List ℤ} {y : List ℕ}
    (hnd : fids.Nodup) (hlen : fids.length = y.length) :
    (featureWrites fids y).map Prod.snd = y := by
  rw [featureWrites, List.map_map]
  exact map_lookup_zip hnd hlen

theorem hierLabels_length (n : ℕ) (d : ℕ → ℕ → Dist) (upd : UpdateRule)
    (sel : List ℕ × Dist → Bool) : (hierLabels n d upd sel).length = n := by
  rw [hierLabels, relabel_length, List.length_map, List.length_range]

theorem fixAll_labels_length (pts : List Pt) (k : ℕ) :
    ∀ (fuel : ℕ) (labels : List ℕ) (cents : List Pt),
      (fixAll pts k fuel labels cents).1.length = labels.length := by
  intro fuel
  induction fuel with
  | zero => intro labels cents; rfl
  | succ m ih =>
    intro labels cents
    rw [fixAll]
    cases hfind : emptyCluster pts.length k labels with
    | none => rfl
    | some j =>
      rw [ih]
      rw [fixOne, List.length_set]

theorem kmeansRun_labels_length (pts : List Pt) (k : ℕ) (cents0 : List Pt) :
    ∀ T, (kmeansRun pts k cents0 T).1.length = pts.length := by
  intro T
  cases T with
  | zero => exact assignLabels_length pts cents0
  | succ m =>
    rw [kmeansRun, kmeansStep, fixAll_labels_length]
    exact assignLabels_length pts _

/-- C7 counterexample: the k-means operation of the source performs no
point-limit check — with a configured limit of 0 and 3 input features
it proceeds, produces a labelling, and writes output features, instead
of rejecting the call. -/
theorem c7_counterexample_kmeans_ignores_limit :
    (0 : ℕ) < ([0, 1, 2] : List ℤ).length ∧
    (kmeansProcess 2 0 [0, 1, 2] [((0 : ℚ), (0 : ℚ)), (0, 1), (10, 0)]
        fun ps k => some (kmeansRun ps k [] 0)).2 = .ok 1 ∧
    (kmeansProcess 2 0 [0, 1, 2] [((0 : ℚ), (0 : ℚ)), (0, 1), (10, 0)]
        fun ps k => some (kmeansRun ps k [] 0)).1.1 ≠ [] := by
  refine ⟨by decide, rfl, by decide⟩

/-- C7 corrected: the point limit is enforced — before any clustering
work — by the two hierarchical operations only; the k-means operation
never consults it, and its result is independent of the configured
limit, whatever the delegated clustering call returns. -/
theorem c7_amended_limit_enforced_hierarchical_only
    (tolerance : ℚ) (criterion : Criterion) (pointLimit : ℕ) (fids : List ℤ)
    (pts : List Pt) (ids : List ℤ) (clusterFn : List Pt → Option (List ℕ))
    (dFn : Pt → Pt → Dist) (linkFn : List Dist → Option (List ℕ)) (kParam : ℚ)
    (kmFn : List Pt → ℕ → Option (List ℕ × List Pt))
    (limit1 limit2 : ℕ) (htol : 0 < tolerance) (hcount : pointLimit < fids.length) :
    (hierProcess tolerance criterion pointLimit fids pts clusterFn).2
        = .error .overPointLimit ∧
    (byIdProcess tolerance criterion pointLimit fids pts ids dFn linkFn).2
        = .error .overPointLimit ∧
    kmeansProcess kParam limit1 fids pts kmFn
        = kmeansProcess kParam limit2 fids pts kmFn := by
  refine ⟨?_, ?_, rfl⟩
  · rw [hierProcess, if_neg (not_le.mpr htol), if_pos hcount]
  · rw [byIdProcess, if_neg (not_le.mpr htol), if_pos hcount]

theorem c7_witness :
    (0 : ℚ) < 1 ∧ (1 : ℕ) < ([3, 4] : List ℤ).length ∧
    ((hierProcess 1 .distance 1 [3, 4] [] fun _ => some []).2
        = .error .overPointLimit ∧
     (byIdProcess 1 .distance 1 [3, 4] [] [] (fun _ _ => (1 : Dist))
        fun _ => some []).2 = .error .overPointLimit ∧
     kmeansProcess 2 0 [3, 4] [] (fun _ _ => some ([], []))
        = kmeansProcess 2 7 [3, 4] [] fun _ _ => some ([], [])) :=
  ⟨by decide, by decide,
    c7_amended_limit_enforced_hierarchical_only 1 .distance 1 [3, 4] [] []
      (fun _ => some []) (fun _ _ => (1 : Dist)) (fun _ => some []) 2
      (fun _ _ => some ([], [])) 0 7 (by decide) (by decide)⟩

/-- C8 counterexample: with criterion `monocrit` and tolerance 0 the
source raises the tolerance error (its check on lines 144-147 ignores
the criterion), although the claim's condition excludes this case from
`InvalidInputError`. -/
theorem c8_counterexample_monocrit_zero_tolerance :
    (hierProcess 0 .monocrit 10 [] [] fun _ => some []).2
        = .error .toleranceNotPositive ∧
    ¬ specC8Condition 0 .monocrit 0 := by
  refine ⟨rfl, ?_⟩
  intro h
  rcases h with ⟨_, h⟩ | ⟨h, _⟩
  · rcases h with h | h <;> cases h
  · cases h

/-- C8 corrected: the hierarchical operations fail with the
`InvalidInputError` for the threshold exactly when the tolerance is
non-positive — for every criterion, not only `distance`/`inconsistent`
— and no `maxclust`-range validation is performed. -/
theorem c8_amended_tolerance_check_unconditional
    (tolerance : ℚ) (criterion : Criterion) (pointLimit : ℕ) (fids : List ℤ)
    (pts : List Pt) (ids : List ℤ) (clusterFn : List Pt → Option (List ℕ))
    (dFn : Pt → Pt → Dist) (linkFn : List Dist → Option (List ℕ))
    (hcount : fids.length ≤ pointLimit) :
    ((hierProcess tolerance criterion pointLimit fids pts clusterFn).2
        = .error .toleranceNotPositive ↔ tolerance ≤ 0) ∧
    ((byIdProcess tolerance criterion pointLimit fids pts ids dFn linkFn).2
        = .error .toleranceNotPositive ↔ tolerance ≤ 0) := by
  constructor
  · constructor
    · intro h
      by_contra hpos
      rw [hierProcess, if_neg hpos, if_neg (not_lt.mpr hcount)] at h
      cases hc : clusterFn pts with
      | none => rw [hc] at h; simp at h
      | some y => rw [hc] at h; simp at h
    · intro h
      rw [hierProcess, if_pos h]
  · constructor
    · intro h
      by_contra hpos
      rw [byIdProcess, if_neg hpos, if_neg (not_lt.mpr hcount)] at h
      cases hc : linkFn (squareToCondensed pts.length
          (constrainSquare
            (fun a b => dFn (pts.getD a (0, 0)) (pts.getD b (0, 0)))
            (fun a => ids.getD a 0))) with
      | none => rw [hc] at h; simp at h
      | some y => rw [hc] at h; simp at h
    · intro h
      rw [byIdProcess, if_pos h]

theorem c8_witness :
    ((hierProcess 0 .maxclust 5 [] [] fun _ => some []).2
        = .error .toleranceNotPositive ↔ (0 : ℚ) ≤ 0) ∧
    ((byIdProcess 0 .maxclust 5 [] [] [] (fun _ _ => (1 : Dist))
        fun _ => some []).2 = .error .toleranceNotPositive ↔ (0 : ℚ) ≤ 0) :=
  c8_amended_tolerance_check_unconditional 0 .maxclust 5 [] [] []
    (fun _ => some []) (fun _ _ => (1 : Dist)) (fun _ => some []) (by decide)

/-- C9: no operation emits partial output — on any failure, including a
failure surfaced by the delegated clustering call, the write log is
empty, and on success the operation writes exactly one labelled feature
per input feature (and, for k-means, one feature per returned
centroid). -/
theorem c9_no_partial_output
    (tolerance : ℚ) (criterion : Criterion) (pointLimit : ℕ) (fids : List ℤ)
    (pts : List Pt) (ids : List ℤ) (clusterFn : List Pt → Option (List ℕ))
    (dFn : Pt → Pt → Dist) (linkFn : List Dist → Option (List ℕ))
    (kParam : ℚ) (kmFn : List Pt → ℕ → Option (List ℕ × List Pt)) :
    ((∀ e, (hierProcess tolerance criterion pointLimit fids pts clusterFn).2 = .error e →
        (hierProcess tolerance criterion pointLimit fids pts clusterFn).1 = []) ∧
     (∀ m, (hierProcess tolerance criterion pointLimit fids pts clusterFn).2 = .ok m →
        (hierProcess tolerance criterion pointLimit fids pts clusterFn).1.length
          = fids.length)) ∧
    ((∀ e, (byIdProcess tolerance criterion pointLimit fids pts ids dFn linkFn).2
          = .error e →
        (byIdProcess tolerance criterion pointLimit fids pts ids dFn linkFn).1 = []) ∧
     (∀ m, (byIdProcess tolerance criterion pointLimit fids pts ids dFn linkFn).2
          = .ok m →
        (byIdProcess tolerance criterion pointLimit fids pts ids dFn linkFn).1.length
          = fids.length)) ∧
    ((∀ e, (kmeansProcess kParam pointLimit fids pts kmFn).2 = .error e →
        (kmeansProcess kParam pointLimit fids pts kmFn).1 = ([], [])) ∧
     (∀ m, (kmeansProcess kParam pointLimit fids pts kmFn).2 = .ok m →
        (kmeansProcess kParam pointLimit fids pts kmFn).1.1.length = fids.length ∧
        ∃ yc, kmFn pts kParam.num.toNat = some yc ∧
          (kmeansProcess kParam pointLimit fids pts kmFn).1.2.length
            = yc.2.length)) := by
  refine ⟨⟨?_, ?_⟩, ⟨?_, ?_⟩, ⟨?_, ?_⟩⟩
  · intro e _
    rw [hierProcess]
    by_cases h1 : tolerance ≤ 0
    · rw [if_pos h1]
    · rw [if_neg h1]
      by_cases h2 : pointLimit < fids.length
      · rw [if_pos h2]
      · rw [if_neg h2]
        cases hc : clusterFn pts with
        | none => rfl
        | some y =>
          exfalso
          rename_i he
          rw [hierProcess, if_neg h1, if_neg h2, hc] at he
          simp at he
  · intro m hm
    rw [hierProcess] at hm ⊢
    by_cases h1 : tolerance ≤ 0
    · rw [if_pos h1] at hm; simp at hm
    · rw [if_neg h1] at hm ⊢
      by_cases h2 : pointLimit < fids.length
      · rw [if_pos h2] at hm; simp at hm
      · rw [if_neg h2] at hm ⊢
        cases hc : clusterFn pts with
        | none => rw [hc] at hm; simp at hm
        | some y =>
          exact featureWrites_length fids y
  · intro e he
    rw [byIdProcess] at he ⊢
    by_cases h1 : tolerance ≤ 0
    · rw [if_pos h1]
    · rw [if_neg h1] at he ⊢
      by_cases h2 : pointLimit < fids.length
      · rw [if_pos h2]
      · rw [if_neg h2] at he ⊢
        cases hc : linkFn (squareToCondensed pts.length
            (constrainSquare
              (fun a b => dFn (pts.getD a (0, 0)) (pts.getD b (0, 0)))
              (fun a => ids.getD a 0))) with
        | none => rfl
        | some y =>
          rw [hc] at he
          simp at he
  · intro m hm
    rw [byIdProcess] at hm ⊢
    by_cases h1 : tolerance ≤ 0
    · rw [if_pos h1] at hm; simp at hm
    · rw [if_neg h1] at hm ⊢
      by_cases h2 : pointLimit < fids.length
      · rw [if_pos h2] at hm; simp at hm
      · rw [if_neg h2] at hm ⊢
        cases hc : linkFn (squareToCondensed pts.length
            (constrainSquare
              (fun a b => dFn (pts.getD a (0, 0)) (pts.getD b (0, 0)))
              (fun a => ids.getD a 0))) with
        | none => rw [hc] at hm; simp at hm
        | some y =>
          exact featureWrites_length fids y
  · intro e he
    rw [kmeansProcess] at he ⊢
    by_cases h1 : kParam.den ≠ 1
    · rw [if_pos h1]
    · rw [if_neg h1] at he ⊢
      cases hc : kmFn pts kParam.num.toNat with
      | none => rfl
      | some yc =>
        rw [hc] at he
        simp at he
  · intro m hm
    rw [kmeansProcess] at hm ⊢
    by_cases h1 : kParam.den ≠ 1
    · rw [if_pos h1] at hm; simp at hm
    · rw [if_neg h1] at hm ⊢
      cases hc : kmFn pts kParam.num.toNat with
      | none => rw [hc] at hm; simp at hm
      | some yc =>
        refine ⟨featureWrites_length fids _, yc, rfl, ?_⟩
        show (yc.2.enum.map fun ic => (ic.2, ic.1)).length = yc.2.length
        rw [List.length_map, List.enum_length]

theorem c9_witness :
    (hierProcess 0 .distance 10 [3] [] fun _ => some []).1 = [] ∧
    (byIdProcess 1 .distance 10 [3] [((0 : ℚ), (0 : ℚ))] [5] (fun _ _ => (1 : Dist))
        fun _ => none).1 = [] ∧
    (kmeansProcess 2 10 [3] [] fun _ _ => none).1 = ([], []) :=
  ⟨((c9_no_partial_output 0 .distance 10 [3] [] [] (fun _ => some [])
      (fun _ _ => (1 : Dist)) (fun _ => none) 2 (fun _ _ => none)).1.1
      .toleranceNotPositive rfl),
   ((c9_no_partial_output 1 .distance 10 [3] [((0 : ℚ), (0 : ℚ))] [5]
      (fun _ => some []) (fun _ _ => (1 : Dist)) (fun _ => none) 2
      (fun _ _ => none)).2.1.1 .clusterFailed rfl),
   ((c9_no_partial_output 0 .distance 10 [3] [] [] (fun _ => some [])
      (fun _ _ => (1 : Dist)) (fun _ => none) 2 (fun _ _ => none)).2.2.1
      .clusterFailed rfl)⟩

/-- C10: on success, the reported NUM_CLUSTERS — `len(np.unique(y))` in
the source — equals the number of distinct labels actually present
among the written output features, for each of the three operations,
generically in the labelling the delegated clustering call returns
(feature ids are assumed distinct, as QGIS guarantees, and the
delegated call is assumed to return one label per input point). -/
theorem c10_num_clusters_matches_written_labels
    (tolerance : ℚ) (criterion : Criterion) (pointLimit : ℕ) (fids : List ℤ)
    (pts : List Pt) (ids : List ℤ) (clusterFn : List Pt → Option (List ℕ))
    (dFn : Pt → Pt → Dist) (linkFn : List Dist → Option (List ℕ))
    (kParam : ℚ) (kmFn : List Pt → ℕ → Option (List ℕ × List Pt))
    (hnd : fids.Nodup)
    (hcfn : ∀ y, clusterFn pts = some y → y.length = fids.length)
    (hlfn : ∀ v y, linkFn v = some y → y.length = pts.length)
    (hkfn : ∀ k yc, kmFn pts k = some yc → yc.1.length = pts.length)
    (hfl : fids.length = pts.length) :
    (∀ m, (hierProcess tolerance criterion pointLimit fids pts clusterFn).2 = .ok m →
      m = (firsts ((hierProcess tolerance criterion pointLimit fids pts clusterFn).1.map
        Prod.snd)).length) ∧
    (∀ m, (byIdProcess tolerance criterion pointLimit fids pts ids dFn linkFn).2
        = .ok m →
      m = (firsts ((byIdProcess tolerance criterion pointLimit fids pts ids
        dFn linkFn).1.map Prod.snd)).length) ∧
    (∀ m, (kmeansProcess kParam pointLimit fids pts kmFn).2 = .ok m →
      m = (firsts ((kmeansProcess kParam pointLimit fids pts kmFn).1.1.map
        Prod.snd)).length) := by
  refine ⟨?_, ?_, ?_⟩
  · intro m hm
    rw [hierProcess] at hm ⊢
    by_cases h1 : tolerance ≤ 0
    · rw [if_pos h1] at hm; simp at hm
    · rw [if_neg h1] at hm ⊢
      by_cases h2 : pointLimit < fids.length
      · rw [if_pos h2] at hm; simp at hm
      · rw [if_neg h2] at hm ⊢
        cases hc : clusterFn pts with
        | none => rw [hc] at hm; simp at hm
        | some y =>
          rw [hc] at hm
          have hmy : m = (firsts y).length := by
            simpa using hm.symm
          show m = (firsts ((featureWrites fids y).map Prod.snd)).length
          rw [hmy, map_snd_featureWrites hnd (hcfn y hc).symm]
  · intro m hm
    rw [byIdProcess] at hm ⊢
    by_cases h1 : tolerance ≤ 0
    · rw [if_pos h1] at hm; simp at hm
    · rw [if_neg h1] at hm ⊢
      by_cases h2 : pointLimit < fids.length
      · rw [if_pos h2] at hm; simp at hm
      · rw [if_neg h2] at hm ⊢
        cases hc : linkFn (squareToCondensed pts.length
            (constrainSquare
              (fun a b => dFn (pts.getD a (0, 0)) (pts.getD b (0, 0)))
              (fun a => ids.getD a 0))) with
        | none => rw [hc] at hm; simp at hm
        | some y =>
          rw [hc] at hm
          have hmy : m = (firsts y).length := by
            simpa using hm.symm
          show m = (firsts ((featureWrites fids y).map Prod.snd)).length
          rw [hmy, map_snd_featureWrites hnd (by rw [hfl, hlfn _ y hc])]
  · intro m hm
    rw [kmeansProcess] at hm ⊢
    by_cases h1 : kParam.den ≠ 1
    · rw [if_pos h1] at hm; simp at hm
    · rw [if_neg h1] at hm ⊢
      cases hc : kmFn pts kParam.num.toNat with
      | none => rw [hc] at hm; simp at hm
      | some yc =>
        rw [hc] at hm
        have hmy : m = (firsts yc.1).length := by
          simpa using hm.symm
        show m = (firsts ((featureWrites fids yc.1).map Prod.snd)).length
        rw [hmy, map_snd_featureWrites hnd (by rw [hfl, hkfn _ yc hc])]

theorem c10_witness :
    ([7, 8] : List ℤ).Nodup ∧
    (1 : ℕ) = (firsts ((hierProcess 1 .distance 10 [7, 8]
      [((0 : ℚ), (0 : ℚ)), (0, 1)] fun _ => some [1, 1]).1.map Prod.snd)).length :=
  ⟨by decide,
    (c10_num_clusters_matches_written_labels 1 .distance 10 [7, 8]
      [((0 : ℚ), (0 : ℚ)), (0, 1)] [] (fun _ => some [1, 1])
      (fun _ _ => (1 : Dist)) (fun _ => some [1, 1]) 2 (fun _ _ => some ([1, 1], []))
      (by decide) (fun y hy => by injection hy with h; rw [← h]; rfl)
      (fun v y hy => by injection hy with h; rw [← h]; rfl)
      (fun k yc hy => by injection hy with h; rw [← h]; rfl)
      (by decide)).1 1 rfl⟩

end SPC

